import Mathlib

/-!
Shallow embedding of the leveldb skip list (src/db/skiplist.h, src/db/skiplist.cc)
and the arena allocator (src/util/arena.h, src/util/arena.cc).

Nodes live in an append-only store (a list); node ids are store indices and play
the role of pointers (the arena never frees or moves a node, so indices are a
faithful model of node addresses).  Index 0 is the sentinel head node created by
the constructor.  A null pointer is modelled as `none : Option Nat`.
Machine integers: keys are modelled as `Int` with the comparator being the usual
three-way order on `Int` (the tests instantiate `Key = uint64_t` with a
three-way comparator).  Loop constructs are modelled with explicit fuel; the
fuel bound is proved sufficient under the structural invariant.
-/

namespace LevelDB

/-- kMaxHeight = 12 (skiplist.h line 186). -/
def kMaxHeight : Nat := 12

/-- A skip list node: an immutable key and one forward link per level the node
occupies (`next.length` is the node's height).  skiplist.h lines 51-75. -/
structure Node where
  key : Int
  next : List (Option Nat)
deriving DecidableEq, Repr

/-- The height of a node = the length of its link array. -/
def Node.height (n : Node) : Nat := n.next.length

/-- Skip list state: the node store (index 0 = sentinel head) and the current
maximum occupied height (`_max_height`). -/
structure SL where
  nodes : List Node
  maxHeight : Nat
deriving DecidableEq, Repr

/-- The sentinel head: NewNode(0, kMaxHeight) with all kMaxHeight links set to
null by the constructor (skiplist.h lines 25-33). -/
def headNode : Node := ⟨0, List.replicate kMaxHeight none⟩

/-- A freshly constructed skip list: only the head, `_max_height = 1`. -/
def SL.empty : SL := ⟨[headNode], 1⟩

/-- Dereference a node id. -/
def SL.getNode (s : SL) (id : Nat) : Option Node := s.nodes[id]?

/-- The key stored at a node id (default 0 for a dangling id, which never
occurs under the invariant). -/
def SL.keyOf (s : SL) (id : Nat) : Int := ((s.getNode id).map Node.key).getD 0

/-- The height of the node at an id (0 for a dangling id). -/
def SL.heightOf (s : SL) (id : Nat) : Nat := ((s.getNode id).map Node.height).getD 0

/-- Node::Next(n): read the level-`level` forward link of node `id`. -/
def SL.nodeNext (s : SL) (id level : Nat) : Option Nat :=
  match s.getNode id with
  | none => none
  | some n => n.next[level]?.getD none

/-- KeyIsAfterNode(key, node) = node != nullptr && compare(node->key, key) < 0
(skiplist.h lines 149-152). -/
def SL.keyIsAfterNode (s : SL) (key : Int) (node : Option Nat) : Bool :=
  match node with
  | none => false
  | some id => decide (s.keyOf id < key)

/-- The loop body of FindGreaterOrEqual (skiplist.h lines 229-252), with
explicit fuel.  Returns the result node and the final predecessor array,
modelled as a function from level to recorded entry.  The result component
never depends on `prev`; passing `prev = nullptr` in the source only skips
the array writes. -/
def SL.findGEAux (s : SL) (key : Int) :
    Nat → Nat → Nat → (Nat → Option Nat) → Option Nat × (Nat → Option Nat)
  | 0, _, _, prev => (none, prev)
  | fuel+1, cur, level, prev =>
    if s.keyIsAfterNode key (s.nodeNext cur level) then
      s.findGEAux key fuel ((s.nodeNext cur level).getD 0) level prev
    else if level = 0 then
      (s.nodeNext cur level, Function.update prev level (some cur))
    else
      s.findGEAux key fuel cur (level - 1) (Function.update prev level (some cur))

/-- Fuel that provably suffices for every search loop under the invariant:
one step per node plus one per level. -/
def SL.runFuel (s : SL) : Nat := s.nodes.length + kMaxHeight + 1

/-- FindGreaterOrEqual(key, prev): start at the head, at level
GetMaxHeight() - 1, with all predecessor entries nullptr (as initialized by
Insert in skiplist.h line 202). -/
def SL.findGE (s : SL) (key : Int) : Option Nat × (Nat → Option Nat) :=
  s.findGEAux key s.runFuel 0 (s.maxHeight - 1) (fun _ => none)

/-- Iterator::Seek(target): _node = FindGreaterOrEqual(target, nullptr). -/
def SL.seek (s : SL) (target : Int) : Option Nat := (s.findGE target).1

/-- Contains(key) (skiplist.h lines 221-227). -/
def SL.contains (s : SL) (key : Int) : Bool :=
  match (s.findGE key).1 with
  | none => false
  | some id => decide (s.keyOf id = key)

/-- The loop of FindLessThan (skiplist.h lines 254-273), with explicit fuel.
Returns the node id of the latest node with key < target (the head, id 0, if
none). -/
def SL.findLTAux (s : SL) (key : Int) : Nat → Nat → Nat → Nat
  | 0, cur, _ => cur
  | fuel+1, cur, level =>
    if s.keyIsAfterNode key (s.nodeNext cur level) then
      s.findLTAux key fuel ((s.nodeNext cur level).getD 0) level
    else if level = 0 then cur
    else s.findLTAux key fuel cur (level - 1)

/-- FindLessThan(key). -/
def SL.findLessThan (s : SL) (key : Int) : Nat :=
  s.findLTAux key s.runFuel 0 (s.maxHeight - 1)

/-- The loop of FindLast (skiplist.h lines 275-295), with explicit fuel. -/
def SL.findLastAux (s : SL) : Nat → Nat → Nat → Nat
  | 0, cur, _ => cur
  | fuel+1, cur, level =>
    match s.nodeNext cur level with
    | some nid => s.findLastAux fuel nid level
    | none => if level = 0 then cur else s.findLastAux fuel cur (level - 1)

/-- FindLast(). -/
def SL.findLast (s : SL) : Nat := s.findLastAux s.runFuel 0 (s.maxHeight - 1)

/-- Iterator::SeekToFirst: _node = _head->Next(0). -/
def SL.seekToFirst (s : SL) : Option Nat := s.nodeNext 0 0

/-- Iterator::SeekToLast: _node = FindLast(); if _node == _head, invalid. -/
def SL.seekToLast (s : SL) : Option Nat :=
  let l := s.findLast
  if l = 0 then none else some l

/-- The body of Iterator::Prev at a valid position `id`:
_node = FindLessThan(_node->key); if _node == _head, invalid. -/
def SL.prevOp (s : SL) (id : Nat) : Option Nat :=
  let p := s.findLessThan (s.keyOf id)
  if p = 0 then none else some p

/-- One Iterator::Next step lifted to positions (`none` = invalid). -/
def SL.step0 (s : SL) (p : Option Nat) : Option Nat :=
  p.bind (fun id => s.nodeNext id 0)

/-- One Iterator::Prev step lifted to positions. -/
def SL.stepBack (s : SL) (p : Option Nat) : Option Nat :=
  p.bind (fun id => s.prevOp id)

/-- Iterator position after SeekToFirst and `n` Next calls. -/
def SL.posAfter (s : SL) (n : Nat) : Option Nat := (s.step0)^[n] s.seekToFirst

/-- Iterator position after SeekToLast and `n` Prev calls. -/
def SL.posBackAfter (s : SL) (n : Nat) : Option Nat := (s.stepBack)^[n] s.seekToLast

/-- Keys visited by repeatedly stepping an iterator with `step` from `start`
while it is valid (fuel-bounded). -/
def SL.walkAux (s : SL) (step : Option Nat → Option Nat) :
    Nat → Option Nat → List Int
  | 0, _ => []
  | _, none => []
  | fuel+1, some id => s.keyOf id :: s.walkAux step fuel (step (some id))

/-- Keys visited by SeekToFirst followed by repeated Next. -/
def SL.scanKeys (s : SL) : List Int :=
  s.walkAux s.step0 s.nodes.length s.seekToFirst

/-- Keys visited by SeekToLast followed by repeated Prev. -/
def SL.backScanKeys (s : SL) : List Int :=
  s.walkAux s.stepBack s.nodes.length s.seekToLast

/-- The node ids on the level-`L` chain starting from position `p`
(fuel-bounded). -/
def SL.chainAux (s : SL) (L : Nat) : Nat → Option Nat → List Nat
  | 0, _ => []
  | _, none => []
  | fuel+1, some id => id :: s.chainAux L fuel (s.nodeNext id L)

/-- The sub-list of node ids reachable by following level-`L` links from the
head. -/
def SL.chainL (s : SL) (L : Nat) : List Nat :=
  s.chainAux L s.nodes.length (s.nodeNext 0 L)

/-- SetNext on the node store: write link `level` of node `id`. -/
def SL.setNext (s : SL) (id level : Nat) (v : Option Nat) : SL :=
  match s.nodes[id]? with
  | none => s
  | some n => { s with nodes := s.nodes.set id { n with next := n.next.set level v } }

/-- One iteration of the linking loop in Insert (skiplist.h lines 215-218):
node->SetNext(i, prev[i]->Next(i)); prev[i]->SetNext(i, node). -/
def SL.spliceLevel (s : SL) (newId p i : Nat) : SL :=
  let s1 := s.setNext newId i (s.nodeNext p i)
  s1.setNext p i (some newId)

/-- The predecessor array as Insert uses it (skiplist.h lines 202-213): the
entries filled by FindGreaterOrEqual and, when the drawn height exceeds the
current maximum, the head at all levels in [GetMaxHeight(), height). -/
def SL.insertPrev (s : SL) (key : Int) (height : Nat) : Nat → Option Nat :=
  if s.maxHeight < height then
    (fun i => if s.maxHeight ≤ i ∧ i < height then some 0 else (s.findGE key).2 i)
  else (s.findGE key).2

/-- The state right after NewNode(key, height) and the _max_height update,
before any link of the loop is written (skiplist.h lines 207-214).  The new
node's links are uninitialized in the source; the `none` placeholders are
overwritten for every level < height by the loop. -/
def SL.insertBase (s : SL) (key : Int) (height : Nat) : SL :=
  { nodes := s.nodes ++ [⟨key, List.replicate height none⟩],
    maxHeight := if s.maxHeight < height then height else s.maxHeight }

/-- Insert(key) with the drawn height made explicit (skiplist.h lines
198-219): compute the predecessors, allocate the node, then splice it in
level by level, bottom-up. -/
def SL.insert (s : SL) (key : Int) (height : Nat) : SL :=
  (List.range height).foldl
    (fun t i => t.spliceLevel s.nodes.length ((s.insertPrev key height i).getD 0) i)
    (s.insertBase key height)

/-- Insert(key) with the duplicate-key assertion made explicit:
assert(node == nullptr || !Equal(node->GetKey(), key)) (skiplist.h line 205).
`none` = the assertion fires (fatal abort). -/
def SL.insertChecked (s : SL) (key : Int) (height : Nat) : Option SL :=
  match (s.findGE key).1 with
  | some id => if s.keyOf id = key then none else some (s.insert key height)
  | none => some (s.insert key height)

/-- Iterator::Next with its assert(Valid()) made explicit: the outer `none`
is the assertion firing on an invalid iterator. -/
def SL.iterNextChecked (s : SL) (pos : Option Nat) : Option (Option Nat) :=
  match pos with
  | none => none
  | some id => some (s.nodeNext id 0)

/-- Iterator::Prev with its assert(Valid()) made explicit. -/
def SL.iterPrevChecked (s : SL) (pos : Option Nat) : Option (Option Nat) :=
  match pos with
  | none => none
  | some id => some (s.prevOp id)

/-- Iterator::GetKey with its assert(Valid()) made explicit. -/
def SL.iterKeyChecked (s : SL) (pos : Option Nat) : Option Int :=
  match pos with
  | none => none
  | some id => some (s.keyOf id)

/-- A freshly constructed iterator: _node = nullptr. -/
def iterInit : Option Nat := none

/-- Iterator::Valid(). -/
def iterValid (pos : Option Nat) : Bool := pos.isSome

/-- The inserted keys: all node keys except the head's. -/
def SL.keys (s : SL) : List Int := (s.nodes.drop 1).map Node.key

/-- An admissible insertion script: pairwise distinct keys (the duplicate-free
contract) and every drawn height in [1, kMaxHeight] (the RandomHeight
postcondition, asserted at skiplist.h lines 308-309). -/
def GoodInserts (l : List (Int × Nat)) : Prop :=
  (l.map Prod.fst).Nodup ∧ ∀ p ∈ l, 1 ≤ p.2 ∧ p.2 ≤ kMaxHeight

/-- Build a skip list by inserting a script into a given state. -/
def buildFrom (s : SL) (l : List (Int × Nat)) : SL :=
  l.foldl (fun t p => t.insert p.1 p.2) s

/-- Build a skip list from the empty list by a script of Insert calls. -/
def build (l : List (Int × Nat)) : SL := buildFrom SL.empty l

/-- RandomHeight (skiplist.h lines 297-311) over an explicit list of OneIn
draws: start at 1, keep incrementing while below kMaxHeight and the draw is
true. -/
def randomHeightAux (h : Nat) : List Bool → Nat
  | [] => h
  | c :: rest => if h < kMaxHeight ∧ c = true then randomHeightAux (h + 1) rest else h

/-- RandomHeight starting from 1. -/
def randomHeight (coins : List Bool) : Nat := randomHeightAux 1 coins

/-! ## The stale FindGreaterOrEqual in skiplist.cc

skiplist.cc lines 54-77 contain a second definition of FindGreaterOrEqual
whose predecessor recording differs from the one in skiplist.h: the entry is
written in the advance branch, after cur has moved, and nothing is written
when a level is left without an advance.  skiplist.cc's Insert (lines 21-44)
also leaves the prev array uninitialized; the initial array contents are
therefore a parameter of the model. -/

/-- The loop of skiplist.cc's FindGreaterOrEqual. -/
def SL.ccFindGEAux (s : SL) (key : Int) :
    Nat → Nat → Nat → (Nat → Option Nat) → Option Nat × (Nat → Option Nat)
  | 0, _, _, prev => (none, prev)
  | fuel+1, cur, level, prev =>
    if s.keyIsAfterNode key (s.nodeNext cur level) then
      s.ccFindGEAux key fuel ((s.nodeNext cur level).getD 0) level
        (Function.update prev level (some ((s.nodeNext cur level).getD 0)))
    else if level = 0 then (s.nodeNext cur level, prev)
    else s.ccFindGEAux key fuel cur (level - 1) prev

/-- skiplist.cc's FindGreaterOrEqual, with the initial (uninitialized in the
source) predecessor array passed in explicitly. -/
def SL.ccFindGE (s : SL) (key : Int) (p0 : Nat → Option Nat) :
    Option Nat × (Nat → Option Nat) :=
  s.ccFindGEAux key s.runFuel 0 (s.maxHeight - 1) p0

/-! ## Arena allocator (src/util/arena.h, src/util/arena.cc)

Pointers are modelled as addresses (Nat, with 0 playing nullptr).  `new char[n]`
is modelled by a monotone address counter rounded up to 16 (operator new
returns max_align_t-aligned memory); sizeof(void *) = 8, so the alignment
constant of AllocateAligned is 8 and sizeof(char *) in MemoryUsage accounting
is 8. -/

/-- kBlockSize = 4096 (arena.cc line 12). -/
def kBlockSize : Nat := 4096

/-- Arena state: allocation cursor, bytes left in the current block, the list
of owned blocks as (address, size) pairs, the usage counter, and the model's
fresh-address counter for operator new. -/
structure Arena where
  allocPtr : Nat
  allocBytesRemaining : Nat
  blocks : List (Nat × Nat)
  memoryUsage : Nat
  freshAddr : Nat
deriving DecidableEq, Repr

/-- A freshly constructed arena: null cursor, no blocks. -/
def Arena.init : Arena := ⟨0, 0, [], 0, 16⟩

/-- AllocateNewBlock(block_bytes) (arena.cc lines 78-84): get a fresh block
from operator new, record it, bump the usage counter by the block size plus
one vector slot (sizeof(char *) = 8). -/
def Arena.allocateNewBlock (a : Arena) (blockBytes : Nat) : Nat × Arena :=
  let addr := 16 * ((a.freshAddr + 15) / 16)
  (addr, { a with blocks := a.blocks ++ [(addr, blockBytes)],
                  memoryUsage := a.memoryUsage + blockBytes + 8,
                  freshAddr := addr + blockBytes })

/-- AllocateFallBack(bytes) (arena.cc lines 27-45). -/
def Arena.allocateFallBack (a : Arena) (bytes : Nat) : Nat × Arena :=
  if kBlockSize / 4 < bytes then
    a.allocateNewBlock bytes
  else
    let r := a.allocateNewBlock kBlockSize
    (r.1, { r.2 with allocPtr := r.1 + bytes,
                     allocBytesRemaining := kBlockSize - bytes })

/-- Allocate(bytes) (arena.cc lines 14-25); `none` = the assert(bytes > 0)
fires. -/
def Arena.allocate (a : Arena) (bytes : Nat) : Option (Nat × Arena) :=
  if bytes = 0 then none
  else if bytes ≤ a.allocBytesRemaining then
    some (a.allocPtr, { a with allocPtr := a.allocPtr + bytes,
                               allocBytesRemaining := a.allocBytesRemaining - bytes })
  else some (a.allocateFallBack bytes)

/-- AllocateAligned(bytes) (arena.cc lines 50-73); `none` = the final
alignment assertion fires.  There is no assertion on `bytes` itself. -/
def Arena.allocateAligned (a : Arena) (bytes : Nat) : Option (Nat × Arena) :=
  let align : Nat := 8
  let offset := a.allocPtr % align
  let padding := if offset = 0 then 0 else align - offset
  let actual := bytes + padding
  let r :=
    if actual ≤ a.allocBytesRemaining then
      (a.allocPtr + padding, { a with allocPtr := a.allocPtr + actual,
                                      allocBytesRemaining := a.allocBytesRemaining - actual })
    else a.allocateFallBack bytes
  if r.1 % align = 0 then some r else none

/-! ## Specification layer -/

/-- A node id denotes a real (non-sentinel) stored node. -/
def SL.isReal (s : SL) (id : Nat) : Prop := 1 ≤ id ∧ id < s.nodes.length

instance (s : SL) (id : Nat) : Decidable (s.isReal id) :=
  inferInstanceAs (Decidable (_ ∧ _))

/-- A real node participates in level `level`. -/
def SL.linked (s : SL) (id level : Nat) : Prop :=
  s.isReal id ∧ level < s.heightOf id

instance (s : SL) (id level : Nat) : Decidable (s.linked id level) :=
  inferInstanceAs (Decidable (_ ∧ _))

/-- A strict lower bound, `none` meaning minus infinity (the head). -/
def gtLo : Option Int → Int → Prop
  | none, _ => True
  | some b, k => b < k

instance (lo : Option Int) (k : Int) : Decidable (gtLo lo k) :=
  match lo with
  | none => isTrue trivial
  | some b => inferInstanceAs (Decidable (b < k))

/-- The lower bound a traversal position imposes: minus infinity at the head,
the node's key otherwise. -/
def SL.loOf (s : SL) (id : Nat) : Option Int :=
  if id = 0 then none else some (s.keyOf id)

/-- What a level-`level` forward link must be when the link's owner imposes
lower bound `lo`: the minimum-key node of level `level` with key above `lo`,
or null when no such node exists. -/
def SL.linkSpec (s : SL) (level : Nat) (lo : Option Int) : Option Nat → Prop
  | none => ∀ j, s.linked j level → ¬ gtLo lo (s.keyOf j)
  | some r => s.linked r level ∧ gtLo lo (s.keyOf r) ∧
      ∀ j, s.linked j level → gtLo lo (s.keyOf j) → s.keyOf r ≤ s.keyOf j

/-- The structural invariant of a skip list state: a head of full height,
bounded occupied height, real-node heights in [1, maxHeight], pairwise
distinct keys, and every forward link pointing at exactly the next node (in
key order) of its level. -/
structure SL.Inv (s : SL) : Prop where
  head_lt : 0 < s.nodes.length
  head_height : s.heightOf 0 = kMaxHeight
  one_le_max : 1 ≤ s.maxHeight
  max_le : s.maxHeight ≤ kMaxHeight
  height_bounds : ∀ id, s.isReal id → 1 ≤ s.heightOf id ∧ s.heightOf id ≤ s.maxHeight
  keys_distinct : ∀ i j, s.isReal i → s.isReal j → i ≠ j → s.keyOf i ≠ s.keyOf j
  links : ∀ id level, (id = 0 ∨ s.isReal id) → level < s.heightOf id →
      s.linkSpec level (s.loOf id) (s.nodeNext id level)

/-- The contract of FindGreaterOrEqual's return value: the earliest node at
or after the key, null if none. -/
def SL.geSpec (s : SL) (t : Int) : Option Nat → Prop
  | none => ∀ j, s.isReal j → s.keyOf j < t
  | some r => s.isReal r ∧ t ≤ s.keyOf r ∧
      ∀ j, s.isReal j → t ≤ s.keyOf j → s.keyOf r ≤ s.keyOf j

/-- The contract of a recorded predecessor entry at a level: the rightmost
node of that level with key strictly below the target, or the head. -/
def SL.floorSpec (s : SL) (level : Nat) (t : Int) (r : Nat) : Prop :=
  (r = 0 ∧ ∀ j, s.linked j level → ¬ s.keyOf j < t) ∨
  (s.linked r level ∧ s.keyOf r < t ∧
    ∀ j, s.linked j level → s.keyOf j < t → s.keyOf j ≤ s.keyOf r)

/-- The contract of FindLessThan: the latest node with key strictly below the
target, the head (0) if none. -/
def SL.ltSpec (s : SL) (t : Int) (r : Nat) : Prop :=
  (r = 0 ∧ ∀ j, s.isReal j → ¬ s.keyOf j < t) ∨
  (s.isReal r ∧ s.keyOf r < t ∧
    ∀ j, s.isReal j → s.keyOf j < t → s.keyOf j ≤ s.keyOf r)

/-- The contract of FindLast: the node with the maximum key, the head (0) on
an empty list. -/
def SL.lastSpec (s : SL) (r : Nat) : Prop :=
  (r = 0 ∧ ∀ j, ¬ s.isReal j) ∨
  (s.isReal r ∧ ∀ j, s.isReal j → s.keyOf j ≤ s.keyOf r)

/-- The number of real nodes with key above `lo` and below `t`; the
termination measure of the bounded searches. -/
def SL.windowCard (s : SL) (lo : Option Int) (t : Int) : Nat :=
  ((Finset.range s.nodes.length).filter
    (fun j => 1 ≤ j ∧ gtLo lo (s.keyOf j) ∧ s.keyOf j < t)).card

/-- The number of real nodes with key above `lo`. -/
def SL.upCard (s : SL) (lo : Option Int) : Nat :=
  ((Finset.range s.nodes.length).filter
    (fun j => 1 ≤ j ∧ gtLo lo (s.keyOf j))).card

/-! ## Basic facts about the traversal tests -/

theorem keyIsAfterNode_true {s : SL} {t : Int} {o : Option Nat} :
    s.keyIsAfterNode t o = true ↔ ∃ id, o = some id ∧ s.keyOf id < t := by
  cases o <;> simp [SL.keyIsAfterNode]

theorem keyIsAfterNode_false {s : SL} {t : Int} {o : Option Nat} :
    s.keyIsAfterNode t o = false ↔ o = none ∨ ∃ id, o = some id ∧ t ≤ s.keyOf id := by
  cases o <;> simp [SL.keyIsAfterNode, not_lt]

theorem gtLo_trans {lo : Option Int} {a b : Int} (h : gtLo lo a) (hab : a ≤ b) :
    gtLo lo b := by
  cases lo with
  | none => trivial
  | some c => exact lt_of_lt_of_le h hab

theorem gtLo_iff {s : SL} {cur : Nat}
    (hcur : cur = 0 ∨ s.isReal cur) (x : Int) :
    gtLo (s.loOf cur) x ↔ (cur = 0 ∨ s.keyOf cur < x) := by
  rcases hcur with h0 | hr
  · simp [SL.loOf, h0, gtLo]
  · have h0 : cur ≠ 0 := by rcases hr with ⟨h1, _⟩; omega
    simp [SL.loOf, h0, gtLo]

theorem windowCard_step (s : SL) (t : Int) {lo : Option Int} {nid : Nat}
    (h1 : 1 ≤ nid) (h2 : nid < s.nodes.length)
    (hgt : gtLo lo (s.keyOf nid)) (hlt : s.keyOf nid < t) :
    s.windowCard (some (s.keyOf nid)) t < s.windowCard lo t := by
  apply Finset.card_lt_card
  rw [Finset.ssubset_def]
  constructor
  · intro j hj
    simp only [Finset.mem_filter, Finset.mem_range] at hj ⊢
    exact ⟨hj.1, hj.2.1, gtLo_trans hgt (le_of_lt hj.2.2.1), hj.2.2.2⟩
  · intro hsub
    have hmem : nid ∈ (Finset.range s.nodes.length).filter
        (fun j => 1 ≤ j ∧ gtLo lo (s.keyOf j) ∧ s.keyOf j < t) := by
      simp only [Finset.mem_filter, Finset.mem_range]
      exact ⟨h2, h1, hgt, hlt⟩
    have h3 := hsub hmem
    simp only [Finset.mem_filter, Finset.mem_range, gtLo] at h3
    exact absurd h3.2.2.1 (lt_irrefl _)

/-! ## Correctness of FindGreaterOrEqual under the invariant -/

theorem findGEAux_spec (s : SL) (t : Int) (hInv : s.Inv) :
    ∀ (fuel cur level : Nat) (prev : Nat → Option Nat),
      (cur = 0 ∨ (s.isReal cur ∧ s.keyOf cur < t)) →
      level < s.heightOf cur →
      level + 1 + s.windowCard (s.loOf cur) t ≤ fuel →
      s.geSpec t (s.findGEAux t fuel cur level prev).1 ∧
      (∀ L, L ≤ level → ∃ r, (s.findGEAux t fuel cur level prev).2 L = some r ∧
          s.floorSpec L t r) ∧
      (∀ L, level < L → (s.findGEAux t fuel cur level prev).2 L = prev L) := by
  intro fuel
  induction fuel with
  | zero => intro cur level prev _ _ hfuel; omega
  | succ f ih =>
    intro cur level prev hcur hlev hfuel
    have hcur' : cur = 0 ∨ s.isReal cur := hcur.imp id And.left
    have hspec := hInv.links cur level hcur' hlev
    cases hadv : s.keyIsAfterNode t (s.nodeNext cur level) with
    | true =>
      rcases keyIsAfterNode_true.mp hadv with ⟨nid, hnid, hlt⟩
      rw [hnid] at hspec
      rcases hspec with ⟨hlink, hgt, _⟩
      have heq : s.findGEAux t (f+1) cur level prev
          = s.findGEAux t f ((s.nodeNext cur level).getD 0) level prev := by
        rw [SL.findGEAux, if_pos hadv]
      rw [heq, hnid]
      have hnid0 : nid ≠ 0 := by rcases hlink.1 with ⟨ha, _⟩; omega
      have hmeas : s.windowCard (s.loOf nid) t < s.windowCard (s.loOf cur) t := by
        have := windowCard_step s t hlink.1.1 hlink.1.2 hgt hlt
        simpa [SL.loOf, hnid0] using this
      exact ih nid level prev (Or.inr ⟨hlink.1, hlt⟩) hlink.2 (by omega)
    | false =>
      have hnone := keyIsAfterNode_false.mp hadv
      -- the current node is the floor of the target at this level
      have hfloor : s.floorSpec level t cur := by
        rcases hcur with h0 | ⟨hreal, hklt⟩
        · left
          refine ⟨h0, fun j hj hjlt => ?_⟩
          rcases hval : s.nodeNext cur level with _ | r
          · rw [hval] at hspec
            exact hspec j hj (by rw [gtLo_iff hcur']; exact Or.inl h0)
          · rw [hval] at hspec
            rcases hnone with hc | ⟨r', hr', hge⟩
            · rw [hval] at hc; cases hc
            · rw [hval] at hr'
              have hrr : r = r' := Option.some.inj hr'
              subst hrr
              have := hspec.2.2 j hj (by rw [gtLo_iff hcur']; exact Or.inl h0)
              omega
        · right
          refine ⟨⟨hreal, hlev⟩, hklt, fun j hj hjlt => ?_⟩
          by_contra hgt'
          push_neg at hgt'
          have hglo : gtLo (s.loOf cur) (s.keyOf j) := by
            rw [gtLo_iff hcur']; exact Or.inr hgt'
          rcases hval : s.nodeNext cur level with _ | r
          · rw [hval] at hspec
            exact hspec j hj hglo
          · rw [hval] at hspec
            rcases hnone with hc | ⟨r', hr', hge⟩
            · rw [hval] at hc; cases hc
            · rw [hval] at hr'
              have hrr : r = r' := Option.some.inj hr'
              subst hrr
              have := hspec.2.2 j hj hglo
              omega
      cases level with
      | zero =>
        have heq : s.findGEAux t (f+1) cur 0 prev
            = (s.nodeNext cur 0, Function.update prev 0 (some cur)) := by
          rw [SL.findGEAux, if_neg (by simp [hadv]), if_pos rfl]
        rw [heq]
        refine ⟨?_, ?_, ?_⟩
        · -- the result satisfies geSpec
          rcases hval : s.nodeNext cur 0 with _ | r
          · rw [hval] at hspec
            intro j hj
            have hlj : s.linked j 0 := ⟨hj, (hInv.height_bounds j hj).1⟩
            have := hspec j hlj
            rw [gtLo_iff hcur'] at this
            push_neg at this
            rcases hcur with h0 | ⟨_, hklt⟩
            · exact absurd h0 this.1
            · have := this.2
              omega
          · rw [hval] at hspec
            rcases hnone with hc | ⟨r', hr', hge⟩
            · rw [hval] at hc; cases hc
            · rw [hval] at hr'
              have hrr : r = r' := Option.some.inj hr'
              subst hrr
              refine ⟨hspec.1.1, hge, fun j hj hjt => ?_⟩
              have hlj : s.linked j 0 := ⟨hj, (hInv.height_bounds j hj).1⟩
              refine hspec.2.2 j hlj ?_
              rw [gtLo_iff hcur']
              rcases hcur with h0 | ⟨_, hklt⟩
              · exact Or.inl h0
              · exact Or.inr (by omega)
        · intro L hL
          have hL0 : L = 0 := by omega
          subst hL0
          exact ⟨cur, by simp [Function.update_same], hfloor⟩
        · intro L hL
          exact Function.update_noteq (by omega) _ _
      | succ l =>
        have heq : s.findGEAux t (f+1) cur (l+1) prev
            = s.findGEAux t f cur l (Function.update prev (l+1) (some cur)) := by
          rw [SL.findGEAux, if_neg (by simp [hadv]), if_neg (by omega)]
          norm_num
        rw [heq]
        have hlev' : l < s.heightOf cur := by omega
        rcases ih cur l (Function.update prev (l+1) (some cur)) hcur hlev' (by omega)
          with ⟨hge, hlow, hhigh⟩
        refine ⟨hge, ?_, ?_⟩
        · intro L hL
          rcases Nat.lt_or_ge L (l+1) with hlt | hge'
          · exact hlow L (by omega)
          · have hL1 : L = l + 1 := by omega
            subst hL1
            refine ⟨cur, ?_, hfloor⟩
            rw [hhigh (l+1) (by omega), Function.update_same]
        · intro L hL
          rw [hhigh L (by omega), Function.update_noteq (by omega)]

theorem upCard_step (s : SL) {lo : Option Int} {nid : Nat}
    (h1 : 1 ≤ nid) (h2 : nid < s.nodes.length)
    (hgt : gtLo lo (s.keyOf nid)) :
    s.upCard (some (s.keyOf nid)) < s.upCard lo := by
  apply Finset.card_lt_card
  rw [Finset.ssubset_def]
  constructor
  · intro j hj
    simp only [Finset.mem_filter, Finset.mem_range] at hj ⊢
    exact ⟨hj.1, hj.2.1, gtLo_trans hgt (le_of_lt hj.2.2)⟩
  · intro hsub
    have hmem : nid ∈ (Finset.range s.nodes.length).filter
        (fun j => 1 ≤ j ∧ gtLo lo (s.keyOf j)) := by
      simp only [Finset.mem_filter, Finset.mem_range]
      exact ⟨h2, h1, hgt⟩
    have h3 := hsub hmem
    simp only [Finset.mem_filter, Finset.mem_range, gtLo] at h3
    exact absurd h3.2.2 (lt_irrefl _)

theorem windowCard_le (s : SL) (lo : Option Int) (t : Int) :
    s.windowCard lo t ≤ s.nodes.length := by
  refine le_trans (Finset.card_filter_le _ _) ?_
  simp

theorem upCard_le (s : SL) (lo : Option Int) :
    s.upCard lo ≤ s.nodes.length := by
  refine le_trans (Finset.card_filter_le _ _) ?_
  simp

/-! ## Correctness of FindLessThan under the invariant -/

theorem findLTAux_spec (s : SL) (t : Int) (hInv : s.Inv) :
    ∀ (fuel cur level : Nat),
      (cur = 0 ∨ (s.isReal cur ∧ s.keyOf cur < t)) →
      level < s.heightOf cur →
      level + 1 + s.windowCard (s.loOf cur) t ≤ fuel →
      s.ltSpec t (s.findLTAux t fuel cur level) := by
  intro fuel
  induction fuel with
  | zero => intro cur level _ _ hfuel; omega
  | succ f ih =>
    intro cur level hcur hlev hfuel
    have hcur' : cur = 0 ∨ s.isReal cur := hcur.imp id And.left
    have hspec := hInv.links cur level hcur' hlev
    cases hadv : s.keyIsAfterNode t (s.nodeNext cur level) with
    | true =>
      rcases keyIsAfterNode_true.mp hadv with ⟨nid, hnid, hlt⟩
      rw [hnid] at hspec
      rcases hspec with ⟨hlink, hgt, _⟩
      have heq : s.findLTAux t (f+1) cur level
          = s.findLTAux t f ((s.nodeNext cur level).getD 0) level := by
        rw [SL.findLTAux, if_pos hadv]
      rw [heq, hnid]
      have hnid0 : nid ≠ 0 := by rcases hlink.1 with ⟨ha, _⟩; omega
      have hmeas : s.windowCard (s.loOf nid) t < s.windowCard (s.loOf cur) t := by
        have := windowCard_step s t hlink.1.1 hlink.1.2 hgt hlt
        simpa [SL.loOf, hnid0] using this
      exact ih nid level (Or.inr ⟨hlink.1, hlt⟩) hlink.2 (by omega)
    | false =>
      have hnone := keyIsAfterNode_false.mp hadv
      cases level with
      | zero =>
        have heq : s.findLTAux t (f+1) cur 0 = cur := by
          rw [SL.findLTAux, if_neg (by simp [hadv]), if_pos rfl]
        rw [heq]
        rcases hcur with h0 | ⟨hreal, hklt⟩
        · left
          refine ⟨h0, fun j hj hjlt => ?_⟩
          have hlj : s.linked j 0 := ⟨hj, (hInv.height_bounds j hj).1⟩
          rcases hval : s.nodeNext cur 0 with _ | r
          · rw [hval] at hspec
            exact hspec j hlj (by rw [gtLo_iff hcur']; exact Or.inl h0)
          · rw [hval] at hspec
            rcases hnone with hc | ⟨r', hr', hge⟩
            · rw [hval] at hc; cases hc
            · rw [hval] at hr'
              have hrr : r = r' := Option.some.inj hr'
              subst hrr
              have := hspec.2.2 j hlj (by rw [gtLo_iff hcur']; exact Or.inl h0)
              omega
        · right
          refine ⟨hreal, hklt, fun j hj hjlt => ?_⟩
          by_contra hgt'
          push_neg at hgt'
          have hlj : s.linked j 0 := ⟨hj, (hInv.height_bounds j hj).1⟩
          have hglo : gtLo (s.loOf cur) (s.keyOf j) := by
            rw [gtLo_iff hcur']; exact Or.inr hgt'
          rcases hval : s.nodeNext cur 0 with _ | r
          · rw [hval] at hspec
            exact hspec j hlj hglo
          · rw [hval] at hspec
            rcases hnone with hc | ⟨r', hr', hge⟩
            · rw [hval] at hc; cases hc
            · rw [hval] at hr'
              have hrr : r = r' := Option.some.inj hr'
              subst hrr
              have := hspec.2.2 j hlj hglo
              omega
      | succ l =>
        have heq : s.findLTAux t (f+1) cur (l+1) = s.findLTAux t f cur l := by
          rw [SL.findLTAux, if_neg (by simp [hadv]), if_neg (by omega)]
          norm_num
        rw [heq]
        exact ih cur l hcur (by omega) (by omega)

/-! ## Correctness of FindLast under the invariant -/

theorem findLastAux_spec (s : SL) (hInv : s.Inv) :
    ∀ (fuel cur level : Nat),
      (cur = 0 ∨ s.isReal cur) →
      level < s.heightOf cur →
      level + 1 + s.upCard (s.loOf cur) ≤ fuel →
      s.lastSpec (s.findLastAux fuel cur level) := by
  intro fuel
  induction fuel with
  | zero => intro cur level _ _ hfuel; omega
  | succ f ih =>
    intro cur level hcur hlev hfuel
    have hspec := hInv.links cur level hcur hlev
    rcases hval : s.nodeNext cur level with _ | nid
    · rw [hval] at hspec
      cases level with
      | zero =>
        have heq : s.findLastAux (f+1) cur 0 = cur := by
          simp only [SL.findLastAux, hval]
          simp
        rw [heq]
        rcases hcur with h0 | hreal
        · left
          refine ⟨h0, fun j hj => ?_⟩
          have hlj : s.linked j 0 := ⟨hj, (hInv.height_bounds j hj).1⟩
          exact hspec j hlj (by rw [gtLo_iff (Or.inl h0)]; exact Or.inl h0)
        · right
          refine ⟨hreal, fun j hj => ?_⟩
          by_contra hgt'
          push_neg at hgt'
          have hlj : s.linked j 0 := ⟨hj, (hInv.height_bounds j hj).1⟩
          exact hspec j hlj (by rw [gtLo_iff (Or.inr hreal)]; exact Or.inr hgt')
      | succ l =>
        have heq : s.findLastAux (f+1) cur (l+1) = s.findLastAux f cur l := by
          simp only [SL.findLastAux, hval, if_neg (by omega : ¬ l + 1 = 0)]
          norm_num
        rw [heq]
        exact ih cur l hcur (by omega) (by omega)
    · rw [hval] at hspec
      rcases hspec with ⟨hlink, hgt, _⟩
      have heq : s.findLastAux (f+1) cur level = s.findLastAux f nid level := by
        simp only [SL.findLastAux, hval]
      rw [heq]
      have hnid0 : nid ≠ 0 := by rcases hlink.1 with ⟨ha, _⟩; omega
      have hmeas : s.upCard (s.loOf nid) < s.upCard (s.loOf cur) := by
        have := upCard_step s hlink.1.1 hlink.1.2 hgt
        simpa [SL.loOf, hnid0] using this
      exact ih nid level (Or.inr hlink.1) hlink.2 (by omega)

/-! ## The top-level search entry points -/

theorem findGE_spec (s : SL) (hInv : s.Inv) (t : Int) :
    s.geSpec t (s.findGE t).1 ∧
    (∀ L, L < s.maxHeight → ∃ r, (s.findGE t).2 L = some r ∧ s.floorSpec L t r) ∧
    (∀ L, s.maxHeight ≤ L → (s.findGE t).2 L = none) := by
  have h0 : s.heightOf 0 = kMaxHeight := hInv.head_height
  have hlev : s.maxHeight - 1 < s.heightOf 0 := by
    rw [h0]; have := hInv.max_le; have := hInv.one_le_max
    simp [kMaxHeight] at *; omega
  have hfuel : (s.maxHeight - 1) + 1 + s.windowCard (s.loOf 0) t ≤ s.runFuel := by
    have h1 := windowCard_le s (s.loOf 0) t
    have h2 := hInv.max_le
    simp only [SL.runFuel, kMaxHeight] at *
    omega
  rcases findGEAux_spec s t hInv s.runFuel 0 (s.maxHeight - 1) (fun _ => none)
    (Or.inl rfl) hlev hfuel with ⟨hge, hlow, hhigh⟩
  refine ⟨hge, ?_, ?_⟩
  · intro L hL
    exact hlow L (by omega)
  · intro L hL
    have := hInv.one_le_max
    exact hhigh L (by omega)

theorem findLessThan_spec (s : SL) (hInv : s.Inv) (t : Int) :
    s.ltSpec t (s.findLessThan t) := by
  have h0 : s.heightOf 0 = kMaxHeight := hInv.head_height
  have hlev : s.maxHeight - 1 < s.heightOf 0 := by
    rw [h0]; have := hInv.max_le; have := hInv.one_le_max
    simp [kMaxHeight] at *; omega
  have hfuel : (s.maxHeight - 1) + 1 + s.windowCard (s.loOf 0) t ≤ s.runFuel := by
    have h1 := windowCard_le s (s.loOf 0) t
    have h2 := hInv.max_le
    simp only [SL.runFuel, kMaxHeight] at *
    omega
  exact findLTAux_spec s t hInv s.runFuel 0 (s.maxHeight - 1) (Or.inl rfl) hlev hfuel

theorem findLast_spec (s : SL) (hInv : s.Inv) :
    s.lastSpec s.findLast := by
  have h0 : s.heightOf 0 = kMaxHeight := hInv.head_height
  have hlev : s.maxHeight - 1 < s.heightOf 0 := by
    rw [h0]; have := hInv.max_le; have := hInv.one_le_max
    simp [kMaxHeight] at *; omega
  have hfuel : (s.maxHeight - 1) + 1 + s.upCard (s.loOf 0) ≤ s.runFuel := by
    have h1 := upCard_le s (s.loOf 0)
    have h2 := hInv.max_le
    simp only [SL.runFuel, kMaxHeight] at *
    omega
  exact findLastAux_spec s hInv s.runFuel 0 (s.maxHeight - 1) (Or.inl rfl) hlev hfuel

/-! ## Effect of a single link write on the store -/

theorem SL.setNext_length (s : SL) (id level : Nat) (v : Option Nat) :
    (s.setNext id level v).nodes.length = s.nodes.length := by
  unfold SL.setNext
  cases h : s.nodes[id]? <;> simp [h]

theorem SL.setNext_maxHeight (s : SL) (id level : Nat) (v : Option Nat) :
    (s.setNext id level v).maxHeight = s.maxHeight := by
  unfold SL.setNext
  cases h : s.nodes[id]? <;> simp [h]

theorem SL.setNext_keyOf (s : SL) (id level : Nat) (v : Option Nat) (j : Nat) :
    (s.setNext id level v).keyOf j = s.keyOf j := by
  unfold SL.setNext SL.keyOf SL.getNode
  cases h : s.nodes[id]? with
  | none => simp [h]
  | some n =>
    simp only [h]
    have hlt : id < s.nodes.length := by
      by_contra hc
      push_neg at hc
      rw [List.getElem?_eq_none hc] at h
      cases h
    by_cases hj : id = j
    · subst hj
      simp [List.getElem?_set, hlt, h]
    · simp [List.getElem?_set, hj]

theorem SL.setNext_heightOf (s : SL) (id level : Nat) (v : Option Nat) (j : Nat) :
    (s.setNext id level v).heightOf j = s.heightOf j := by
  unfold SL.setNext SL.heightOf SL.getNode
  cases h : s.nodes[id]? with
  | none => simp [h]
  | some n =>
    simp only [h]
    have hlt : id < s.nodes.length := by
      by_contra hc
      push_neg at hc
      rw [List.getElem?_eq_none hc] at h
      cases h
    by_cases hj : id = j
    · subst hj
      simp [List.getElem?_set, hlt, h, Node.height]
    · simp [List.getElem?_set, hj]

theorem SL.nodeNext_eq (s : SL) {id : Nat} {n : Node} (h : s.getNode id = some n)
    (l : Nat) : s.nodeNext id l = n.next[l]?.getD none := by
  simp [SL.nodeNext, h]

theorem SL.nodeNext_eq_none (s : SL) {id : Nat} (h : s.getNode id = none)
    (l : Nat) : s.nodeNext id l = none := by
  simp [SL.nodeNext, h]

theorem SL.setNext_nodeNext (s : SL) (id level : Nat) (v : Option Nat) (j l : Nat) :
    (s.setNext id level v).nodeNext j l =
      if id < s.nodes.length ∧ level < s.heightOf id ∧ j = id ∧ l = level then v
      else s.nodeNext j l := by
  by_cases hid : id < s.nodes.length
  · obtain ⟨n, hn⟩ : ∃ n, s.nodes[id]? = some n := by
      exact ⟨s.nodes[id], List.getElem?_eq_some.mpr ⟨hid, rfl⟩⟩
    have hh : s.heightOf id = n.next.length := by
      simp [SL.heightOf, SL.getNode, hn, Node.height]
    have hset : (s.setNext id level v).nodes
        = s.nodes.set id { key := n.key, next := n.next.set level v } := by
      simp [SL.setNext, hn]
    by_cases hj : j = id
    · subst hj
      have hget : (s.setNext j level v).getNode j
          = some { key := n.key, next := n.next.set level v } := by
        simp [SL.getNode, hset, List.getElem?_set_self hid]
      rw [SL.nodeNext_eq _ hget]
      by_cases hl : l = level
      · subst hl
        by_cases hlen : l < n.next.length
        · rw [List.getElem?_set_self (by simpa using hlen)]
          rw [if_pos ⟨hid, by omega, rfl, rfl⟩]
          rfl
        · rw [List.getElem?_eq_none (by simpa using (by omega : n.next.length ≤ l))]
          rw [if_neg (by intro hc; omega)]
          rw [SL.nodeNext_eq _ (by simpa [SL.getNode] using hn)]
          rw [List.getElem?_eq_none (by omega : n.next.length ≤ l)]
      · rw [List.getElem?_set_ne (fun hc => hl hc.symm)]
        rw [if_neg (by intro hc; exact hl hc.2.2.2)]
        rw [SL.nodeNext_eq _ (by simpa [SL.getNode] using hn)]
    · have hget : (s.setNext id level v).getNode j = s.getNode j := by
        simp [SL.getNode, hset, List.getElem?_set_ne (fun hc => hj hc.symm)]
      rw [if_neg (by intro hc; exact hj hc.2.2.1)]
      simp [SL.nodeNext, hget]
  · have hn : s.nodes[id]? = none :=
      List.getElem?_eq_none (by omega)
    have hset : s.setNext id level v = s := by
      simp [SL.setNext, hn]
    rw [hset, if_neg (by intro hc; exact hid hc.1)]

/-! ## Effect of allocating the new node -/

theorem SL.insertBase_length (s : SL) (k : Int) (h : Nat) :
    (s.insertBase k h).nodes.length = s.nodes.length + 1 := by
  simp [SL.insertBase]

theorem SL.insertBase_maxHeight (s : SL) (k : Int) (h : Nat) :
    (s.insertBase k h).maxHeight = if s.maxHeight < h then h else s.maxHeight := rfl

theorem SL.insertBase_getNode_lt (s : SL) (k : Int) (h : Nat) {j : Nat}
    (hj : j < s.nodes.length) :
    (s.insertBase k h).getNode j = s.getNode j := by
  simp [SL.insertBase, SL.getNode, List.getElem?_append_left hj]

theorem SL.insertBase_getNode_new (s : SL) (k : Int) (h : Nat) :
    (s.insertBase k h).getNode s.nodes.length = some ⟨k, List.replicate h none⟩ := by
  simp [SL.insertBase, SL.getNode]

theorem SL.insertBase_keyOf_lt (s : SL) (k : Int) (h : Nat) {j : Nat}
    (hj : j < s.nodes.length) :
    (s.insertBase k h).keyOf j = s.keyOf j := by
  simp [SL.keyOf, SL.insertBase_getNode_lt s k h hj]

theorem SL.insertBase_keyOf_new (s : SL) (k : Int) (h : Nat) :
    (s.insertBase k h).keyOf s.nodes.length = k := by
  simp [SL.keyOf, SL.insertBase_getNode_new]

theorem SL.insertBase_heightOf_lt (s : SL) (k : Int) (h : Nat) {j : Nat}
    (hj : j < s.nodes.length) :
    (s.insertBase k h).heightOf j = s.heightOf j := by
  simp [SL.heightOf, SL.insertBase_getNode_lt s k h hj]

theorem SL.insertBase_heightOf_new (s : SL) (k : Int) (h : Nat) :
    (s.insertBase k h).heightOf s.nodes.length = h := by
  simp [SL.heightOf, SL.insertBase_getNode_new, Node.height]

theorem SL.insertBase_nodeNext_lt (s : SL) (k : Int) (h : Nat) {j : Nat}
    (hj : j < s.nodes.length) (l : Nat) :
    (s.insertBase k h).nodeNext j l = s.nodeNext j l := by
  unfold SL.nodeNext
  rw [SL.insertBase_getNode_lt s k h hj]

theorem SL.insertBase_nodeNext_new (s : SL) (k : Int) (h : Nat) (l : Nat) :
    (s.insertBase k h).nodeNext s.nodes.length l = none := by
  unfold SL.nodeNext
  rw [SL.insertBase_getNode_new]
  by_cases hl : l < h
  · simp [List.getElem?_replicate, hl]
  · simp [List.getElem?_replicate, hl]

/-! ## The splice loop of Insert -/

/-- The first `m` iterations of Insert's linking loop over an abstract
predecessor assignment `P`. -/
def SL.spliceFold (s : SL) (k : Int) (h : Nat) (P : Nat → Nat) (m : Nat) : SL :=
  (List.range m).foldl (fun t i => t.spliceLevel s.nodes.length (P i) i)
    (s.insertBase k h)

theorem SL.insert_eq_spliceFold (s : SL) (k : Int) (h : Nat) :
    s.insert k h = s.spliceFold k h (fun i => (s.insertPrev k h i).getD 0) h := rfl

theorem SL.spliceFold_succ (s : SL) (k : Int) (h : Nat) (P : Nat → Nat) (m : Nat) :
    s.spliceFold k h P (m+1)
      = (s.spliceFold k h P m).spliceLevel s.nodes.length (P m) m := by
  unfold SL.spliceFold
  rw [List.range_succ, List.foldl_append]
  rfl

theorem spliceFold_spec (s : SL) (k : Int) (h : Nat) (P : Nat → Nat)
    (hP : ∀ i, i < h → P i < s.nodes.length ∧ i < s.heightOf (P i)) :
    ∀ m, m ≤ h →
      (s.spliceFold k h P m).nodes.length = s.nodes.length + 1 ∧
      (s.spliceFold k h P m).maxHeight = (s.insertBase k h).maxHeight ∧
      (∀ j, (s.spliceFold k h P m).keyOf j = (s.insertBase k h).keyOf j) ∧
      (∀ j, (s.spliceFold k h P m).heightOf j = (s.insertBase k h).heightOf j) ∧
      (∀ j l, (s.spliceFold k h P m).nodeNext j l =
        if l < m ∧ j = s.nodes.length then s.nodeNext (P l) l
        else if l < m ∧ j = P l then some s.nodes.length
        else (s.insertBase k h).nodeNext j l) := by
  intro m
  induction m with
  | zero =>
    intro _
    refine ⟨s.insertBase_length k h, rfl, fun j => rfl, fun j => rfl, fun j l => ?_⟩
    simp [SL.spliceFold]
  | succ m ih =>
    intro hm1
    have hm : m ≤ h := by omega
    have hmh : m < h := by omega
    rcases ih hm with ⟨ihlen, ihmax, ihkey, ihheight, ihnext⟩
    rw [SL.spliceFold_succ]
    unfold SL.spliceLevel
    have hPm := hP m hmh
    -- the value read from the predecessor is untouched by earlier iterations
    have hread : (s.spliceFold k h P m).nodeNext (P m) m = s.nodeNext (P m) m := by
      rw [ihnext (P m) m]
      rw [if_neg (by omega), if_neg (by omega)]
      exact s.insertBase_nodeNext_lt k h hPm.1 m
    have hnewlt : s.nodes.length < (s.spliceFold k h P m).nodes.length := by omega
    have hnewh : (s.spliceFold k h P m).heightOf s.nodes.length = h := by
      rw [ihheight]
      exact s.insertBase_heightOf_new k h
    have hPh : (s.spliceFold k h P m).heightOf (P m) = s.heightOf (P m) := by
      rw [ihheight]
      exact s.insertBase_heightOf_lt k h hPm.1
    set tm := s.spliceFold k h P m with htm
    set u := tm.setNext s.nodes.length m (tm.nodeNext (P m) m) with hu
    have hulen : u.nodes.length = s.nodes.length + 1 := by
      rw [hu, SL.setNext_length, ihlen]
    have huh : ∀ j, u.heightOf j = tm.heightOf j := fun j => SL.setNext_heightOf ..
    have hunext : ∀ j l, u.nodeNext j l =
        if j = s.nodes.length ∧ l = m then s.nodeNext (P m) m
        else tm.nodeNext j l := by
      intro j l
      rw [hu, SL.setNext_nodeNext]
      by_cases hc : j = s.nodes.length ∧ l = m
      · rw [if_pos ⟨by omega, by rw [hnewh]; omega, hc.1, hc.2⟩, if_pos hc, hread]
      · rw [if_neg (by intro hc2; exact hc ⟨hc2.2.2.1, hc2.2.2.2⟩), if_neg hc]
    refine ⟨?_, ?_, ?_, ?_, ?_⟩
    · rw [SL.setNext_length, hulen]
    · rw [SL.setNext_maxHeight, hu, SL.setNext_maxHeight, ihmax]
    · intro j
      rw [SL.setNext_keyOf, hu, SL.setNext_keyOf, ihkey]
    · intro j
      rw [SL.setNext_heightOf, huh, ihheight]
    · intro j l
      rw [SL.setNext_nodeNext]
      have hPlt' : P m < u.nodes.length := by omega
      have hPh' : m < u.heightOf (P m) := by rw [huh, hPh]; exact hPm.2
      have hPne : P m ≠ s.nodes.length := by omega
      by_cases hc : j = P m ∧ l = m
      · rw [if_pos ⟨hPlt', hPh', hc.1, hc.2⟩]
        rw [if_neg (fun hx => hPne (hc.1.symm.trans hx.2))]
        rw [if_pos ⟨by omega, by rw [hc.2]; exact hc.1⟩]
      · rw [if_neg (fun hx => hc ⟨hx.2.2.1, hx.2.2.2⟩)]
        rw [hunext]
        by_cases hc2 : j = s.nodes.length ∧ l = m
        · rw [if_pos hc2]
          rw [if_pos ⟨by omega, hc2.1⟩]
          rw [hc2.2]
        · rw [if_neg hc2, ihnext]
          by_cases hl : l < m
          · by_cases hjn : j = s.nodes.length
            · rw [if_pos ⟨hl, hjn⟩]
              rw [if_pos ⟨by omega, hjn⟩]
            · rw [if_neg (fun hx => hjn hx.2)]
              by_cases hjp : j = P l
              · rw [if_pos ⟨hl, hjp⟩]
                rw [if_neg (fun hx => hjn hx.2)]
                rw [if_pos ⟨by omega, hjp⟩]
              · rw [if_neg (fun hx => hjp hx.2)]
                rw [if_neg (fun hx => hjn hx.2)]
                rw [if_neg (fun hx => hjp hx.2)]
          · rw [if_neg (fun hx => hl hx.1), if_neg (fun hx => hl hx.1)]
            have hx1 : ¬ (l < m + 1 ∧ j = s.nodes.length) := by
              intro hx
              exact hc2 ⟨hx.2, by omega⟩
            have hx2 : ¬ (l < m + 1 ∧ j = P l) := by
              intro hx
              have hlm : l = m := by omega
              rw [hlm] at hx
              exact hc ⟨hx.2, hlm⟩
            rw [if_neg hx1, if_neg hx2]

/-! ## Dangling-id conventions -/

theorem SL.keyOf_dangling (s : SL) {j : Nat} (hj : s.nodes.length ≤ j) :
    s.keyOf j = 0 := by
  simp [SL.keyOf, SL.getNode, List.getElem?_eq_none hj]

theorem SL.nodeNext_dangling (s : SL) {j : Nat} (hj : s.nodes.length ≤ j) (l : Nat) :
    s.nodeNext j l = none := by
  rw [SL.nodeNext_eq_none]
  simp [SL.getNode, List.getElem?_eq_none hj]

theorem SL.getNode_map_key (s : SL) {j : Nat} (hj : j < s.nodes.length) :
    (s.getNode j).map Node.key = some (s.keyOf j) := by
  obtain ⟨n, hn⟩ : ∃ n, s.nodes[j]? = some n :=
    ⟨s.nodes[j], List.getElem?_eq_some.mpr ⟨hj, rfl⟩⟩
  simp [SL.keyOf, SL.getNode, hn]

/-! ## Insert preserves the invariant -/

theorem insert_spec (s : SL) (hInv : s.Inv) (k : Int) (h : Nat)
    (hfresh : ∀ j, s.isReal j → s.keyOf j ≠ k) (h1 : 1 ≤ h) (h12 : h ≤ kMaxHeight) :
    (s.insert k h).Inv ∧
    (s.insert k h).nodes.length = s.nodes.length + 1 ∧
    (s.insert k h).nodes.map Node.key = s.nodes.map Node.key ++ [k] ∧
    (s.insert k h).maxHeight = if s.maxHeight < h then h else s.maxHeight := by
  have hlen0 : 0 < s.nodes.length := hInv.head_lt
  rcases findGE_spec s hInv k with ⟨hge, hlow, hhigh⟩
  set P : Nat → Nat := fun i => (s.insertPrev k h i).getD 0 with hPdef
  -- every used predecessor entry is a floor of the key at its level
  have hPfloor : ∀ i, i < h → s.floorSpec i k (P i) := by
    intro i hi
    rw [hPdef]
    simp only [SL.insertPrev]
    by_cases hmh : s.maxHeight < h
    · rw [if_pos hmh]
      by_cases hihi : s.maxHeight ≤ i ∧ i < h
      · simp only [if_pos hihi, Option.getD_some]
        left
        refine ⟨rfl, fun j hj => ?_⟩
        intro _
        have hb := (hInv.height_bounds j hj.1).2
        have := hj.2
        omega
      · simp only [if_neg hihi]
        have himax : i < s.maxHeight := by
          rcases Nat.lt_or_ge i s.maxHeight with hx | hx
          · exact hx
          · exact absurd ⟨hx, hi⟩ hihi
        rcases hlow i himax with ⟨r, hr, hfl⟩
        rw [hr]
        exact hfl
    · rw [if_neg hmh]
      have himax : i < s.maxHeight := by omega
      rcases hlow i himax with ⟨r, hr, hfl⟩
      rw [hr]
      exact hfl
  -- predecessors are valid node positions linked at their level
  have hP : ∀ i, i < h → P i < s.nodes.length ∧ i < s.heightOf (P i) := by
    intro i hi
    rcases hPfloor i hi with ⟨h0, _⟩ | ⟨hlk, _, _⟩
    · rw [h0]
      refine ⟨hlen0, ?_⟩
      rw [hInv.head_height]
      simp only [kMaxHeight] at *
      omega
    · exact ⟨hlk.1.2, hlk.2⟩
  have hPor : ∀ i, i < h → (P i = 0 ∨ s.isReal (P i)) := by
    intro i hi
    rcases hPfloor i hi with ⟨h0, _⟩ | ⟨hlk, _, _⟩
    · exact Or.inl h0
    · exact Or.inr hlk.1
  rcases spliceFold_spec s k h P hP h (le_refl h) with
    ⟨hlen, hmax, hkey, hheight, hnext⟩
  rw [SL.insert_eq_spliceFold]
  set s2 := s.spliceFold k h P h with hs2
  -- friendly forms of the characterization
  have hkey' : ∀ j, s2.keyOf j = if j = s.nodes.length then k else s.keyOf j := by
    intro j
    rw [hkey j]
    by_cases hj : j = s.nodes.length
    · subst hj
      rw [if_pos rfl, s.insertBase_keyOf_new]
    · rw [if_neg hj]
      rcases Nat.lt_or_ge j s.nodes.length with hx | hx
      · exact s.insertBase_keyOf_lt k h hx
      · have hx2 : s.nodes.length < j := by omega
        rw [SL.keyOf_dangling _ (by rw [s.insertBase_length]; omega),
            SL.keyOf_dangling _ (by omega)]
  have hheight' : ∀ j, s2.heightOf j = if j = s.nodes.length then h else s.heightOf j := by
    intro j
    rw [hheight j]
    by_cases hj : j = s.nodes.length
    · subst hj
      rw [if_pos rfl, s.insertBase_heightOf_new]
    · rw [if_neg hj]
      rcases Nat.lt_or_ge j s.nodes.length with hx | hx
      · exact s.insertBase_heightOf_lt k h hx
      · have hx2 : s.nodes.length < j := by omega
        simp [SL.heightOf, SL.getNode, List.getElem?_eq_none,
          (by rw [s.insertBase_length]; omega : (s.insertBase k h).nodes.length ≤ j),
          (by omega : s.nodes.length ≤ j)]
  have hisReal' : ∀ j, s2.isReal j ↔ (s.isReal j ∨ j = s.nodes.length) := by
    intro j
    unfold SL.isReal
    rw [hlen]
    omega
  have hlinked' : ∀ j L, s2.linked j L ↔
      (s.linked j L ∨ (j = s.nodes.length ∧ L < h)) := by
    intro j L
    unfold SL.linked
    rw [hisReal' j, hheight' j]
    constructor
    · rintro ⟨hr | hn, hh⟩
      · rcases eq_or_ne j s.nodes.length with hj | hj
        · rcases hr with ⟨_, hlt⟩
          omega
        · rw [if_neg hj] at hh
          exact Or.inl ⟨hr, hh⟩
      · rw [if_pos hn] at hh
        exact Or.inr ⟨hn, hh⟩
    · rintro (⟨hr, hh⟩ | ⟨hn, hh⟩)
      · have hj : j ≠ s.nodes.length := by rcases hr with ⟨_, hlt⟩; omega
        rw [if_neg hj]
        exact ⟨Or.inl hr, hh⟩
      · rw [if_pos hn]
        exact ⟨Or.inr hn, hh⟩
  have hnext' : ∀ j l, s2.nodeNext j l =
      if l < h ∧ j = s.nodes.length then s.nodeNext (P l) l
      else if l < h ∧ j = P l then some s.nodes.length
      else if j = s.nodes.length then none
      else s.nodeNext j l := by
    intro j l
    rw [hnext j l]
    by_cases hc1 : l < h ∧ j = s.nodes.length
    · rw [if_pos hc1, if_pos hc1]
    · rw [if_neg hc1, if_neg hc1]
      by_cases hc2 : l < h ∧ j = P l
      · rw [if_pos hc2, if_pos hc2]
      · rw [if_neg hc2, if_neg hc2]
        by_cases hj : j = s.nodes.length
        · subst hj
          rw [if_pos rfl]
          exact s.insertBase_nodeNext_new k h l
        · rw [if_neg hj]
          rcases Nat.lt_or_ge j s.nodes.length with hx | hx
          · exact s.insertBase_nodeNext_lt k h hx l
          · rw [SL.nodeNext_dangling _ (by rw [s.insertBase_length]; omega),
                SL.nodeNext_dangling _ (by omega)]
  have hloOf' : ∀ j, j ≠ s.nodes.length → s2.loOf j = s.loOf j := by
    intro j hj
    unfold SL.loOf
    rw [hkey' j, if_neg hj]
  have hlenne : (0 : Nat) ≠ s.nodes.length := by omega
  refine ⟨?_, ?_, ?_, ?_⟩
  · -- the invariant
    refine ⟨?_, ?_, ?_, ?_, ?_, ?_, ?_⟩
    · omega
    · rw [hheight' 0, if_neg hlenne]
      exact hInv.head_height
    · rw [hmax, SL.insertBase_maxHeight]
      have := hInv.one_le_max
      by_cases hx : s.maxHeight < h <;> simp [hx] <;> omega
    · rw [hmax, SL.insertBase_maxHeight]
      have := hInv.max_le
      by_cases hx : s.maxHeight < h <;> simp [hx] <;> omega
    · intro id hid
      rw [hheight' id]
      rw [hmax, SL.insertBase_maxHeight]
      rcases (hisReal' id).mp hid with hr | hn
      · rw [if_neg (by rcases hr with ⟨_, hlt⟩; omega)]
        have hb := hInv.height_bounds id hr
        by_cases hx : s.maxHeight < h <;> simp [hx] <;> omega
      · rw [if_pos hn]
        by_cases hx : s.maxHeight < h <;> simp [hx] <;> omega
    · intro i j hi hj hij
      rw [hkey' i, hkey' j]
      rcases (hisReal' i).mp hi with hri | hni
      · have hine : i ≠ s.nodes.length := by rcases hri with ⟨_, hlt⟩; omega
        rw [if_neg hine]
        rcases (hisReal' j).mp hj with hrj | hnj
        · have hjne : j ≠ s.nodes.length := by rcases hrj with ⟨_, hlt⟩; omega
          rw [if_neg hjne]
          exact hInv.keys_distinct i j hri hrj hij
        · rw [if_pos hnj]
          exact hfresh i hri
      · rw [if_pos hni]
        rcases (hisReal' j).mp hj with hrj | hnj
        · have hjne : j ≠ s.nodes.length := by rcases hrj with ⟨_, hlt⟩; omega
          rw [if_neg hjne]
          intro hc
          exact hfresh j hrj hc.symm
        · exact absurd (hni.trans hnj.symm) hij
    · -- the link specification, the heart of the preservation proof
      intro id L hid hL
      by_cases hidn : id = s.nodes.length
      · -- the newly inserted node
        subst hidn
        rw [hheight' _, if_pos rfl] at hL
        rw [hnext' _ L, if_pos ⟨hL, rfl⟩]
        have hlo2 : s2.loOf s.nodes.length = some k := by
          unfold SL.loOf
          rw [if_neg (by omega), hkey' _, if_pos rfl]
        rw [hlo2]
        have hfl := hPfloor L hL
        have hvspec := hInv.links (P L) L (hPor L hL) (hP L hL).2
        rcases hv : s.nodeNext (P L) L with _ | r
        · rw [hv] at hvspec
          intro j hj
          rcases (hlinked' j L).mp hj with hold | ⟨hjn, _⟩
          · rw [hkey' j, if_neg (by rcases hold with ⟨⟨_, hlt⟩, _⟩; omega)]
            intro hklt
            simp only [gtLo] at hklt
            refine hvspec j hold ?_
            rcases hfl with ⟨hP0, _⟩ | ⟨hFl, hFk, _⟩
            · rw [hP0]
              simp [SL.loOf, gtLo]
            · have hF0 : P L ≠ 0 := by rcases hFl with ⟨⟨ha, _⟩, _⟩; omega
              simp only [SL.loOf, if_neg hF0, gtLo]
              omega
          · rw [hkey' j, if_pos hjn]
            simp [gtLo]
        · rw [hv] at hvspec
          rcases hvspec with ⟨hrl, hrgt, hrmin⟩
          have hrne : r ≠ s.nodes.length := by rcases hrl with ⟨⟨_, hlt⟩, _⟩; omega
          have hkr : k < s.keyOf r := by
            rcases lt_trichotomy (s.keyOf r) k with hx | hx | hx
            · exfalso
              rcases hfl with ⟨hP0, hnone⟩ | ⟨hFl, hFk, hmaxf⟩
              · exact hnone r hrl hx
              · have hF0 : P L ≠ 0 := by rcases hFl with ⟨⟨ha, _⟩, _⟩; omega
                have h5 := hmaxf r hrl hx
                simp only [SL.loOf, if_neg hF0, gtLo] at hrgt
                omega
            · exact absurd hx (hfresh r hrl.1)
            · exact hx
          refine ⟨(hlinked' r L).mpr (Or.inl hrl), ?_, ?_⟩
          · rw [hkey' r, if_neg hrne]
            exact hkr
          · intro j hj hgt
            rw [hkey' r, if_neg hrne]
            rcases (hlinked' j L).mp hj with hold | ⟨hjn, _⟩
            · rw [hkey' j, if_neg (by rcases hold with ⟨⟨_, hlt⟩, _⟩; omega)] at hgt ⊢
              refine hrmin j hold ?_
              rcases hfl with ⟨hP0, _⟩ | ⟨hFl, hFk, _⟩
              · rw [hP0]
                simp [SL.loOf, gtLo]
              · have hF0 : P L ≠ 0 := by rcases hFl with ⟨⟨ha, _⟩, _⟩; omega
                simp only [SL.loOf, if_neg hF0, gtLo]
                simp only [gtLo] at hgt
                omega
            · rw [hkey' j, if_pos hjn] at hgt
              simp only [gtLo] at hgt
              omega
      · -- a node that existed before the insertion
        have hidlt : id < s.nodes.length := by
          rcases hid with h0 | hr
          · omega
          · rcases (hisReal' id).mp hr with ⟨_, hlt⟩ | hn
            · omega
            · exact absurd hn hidn
        have hid' : id = 0 ∨ s.isReal id := by
          rcases hid with h0 | hr
          · exact Or.inl h0
          · rcases (hisReal' id).mp hr with hr2 | hn
            · exact Or.inr hr2
            · exact absurd hn hidn
        rw [hheight' id, if_neg hidn] at hL
        rw [hloOf' id hidn]
        by_cases hsplice : L < h ∧ id = P L
        · -- the redirected link now points at the new node
          rw [hnext' id L, if_neg (fun hx => hidn hx.2), if_pos hsplice]
          have hfl := hPfloor L hsplice.1
          refine ⟨(hlinked' _ L).mpr (Or.inr ⟨rfl, hsplice.1⟩), ?_, ?_⟩
          · rw [hkey' _, if_pos rfl]
            rcases hfl with ⟨hP0, _⟩ | ⟨hFl, hFk, _⟩
            · have hid0 : id = 0 := by rw [hsplice.2, hP0]
              rw [hid0]
              simp [SL.loOf, gtLo]
            · have hF0 : P L ≠ 0 := by rcases hFl with ⟨⟨ha, _⟩, _⟩; omega
              have hid0 : id ≠ 0 := by rw [hsplice.2]; exact hF0
              simp only [SL.loOf, if_neg hid0, gtLo]
              rw [hsplice.2]
              exact hFk
          · intro j hj hgt
            rw [hkey' _, if_pos rfl]
            rcases (hlinked' j L).mp hj with hold | ⟨hjn, _⟩
            · rw [hkey' j, if_neg (by rcases hold with ⟨⟨_, hlt⟩, _⟩; omega)] at hgt ⊢
              by_contra hlt'
              push_neg at hlt'
              rcases hfl with ⟨hP0, hnone⟩ | ⟨hFl, hFk, hmaxf⟩
              · exact hnone j hold hlt'
              · have hF0 : P L ≠ 0 := by rcases hFl with ⟨⟨ha, _⟩, _⟩; omega
                have hid0 : id ≠ 0 := by rw [hsplice.2]; exact hF0
                have h5 := hmaxf j hold hlt'
                simp only [SL.loOf, if_neg hid0, gtLo] at hgt
                rw [hsplice.2] at hgt
                omega
            · rw [hkey' j, if_pos hjn]
        · -- an untouched link
          rw [hnext' id L, if_neg (fun hx => hidn hx.2), if_neg hsplice,
            if_neg hidn]
          have hw := hInv.links id L hid' hL
          rcases hv : s.nodeNext id L with _ | w
          · rw [hv] at hw
            intro j hj
            rcases (hlinked' j L).mp hj with hold | ⟨hjn, hLh⟩
            · rw [hkey' j, if_neg (by rcases hold with ⟨⟨_, hlt⟩, _⟩; omega)]
              exact hw j hold
            · rw [hkey' j, if_pos hjn]
              intro hg
              have hidP : id ≠ P L := fun hx => hsplice ⟨hLh, hx⟩
              rcases hPfloor L hLh with ⟨hP0, hnone⟩ | ⟨hFl, hFk, hmaxf⟩
              · -- the floor is the head, so no node below k is linked here;
                -- but then id itself must be the floor, contradiction
                rcases hid' with h0 | hr
                · exact hidP (h0.trans hP0.symm)
                · have hidlk : s.linked id L := ⟨hr, hL⟩
                  have hidk : s.keyOf id < k := by
                    have hg2 := hg
                    simp only [SL.loOf, if_neg (by rcases hr with ⟨ha, _⟩; omega : id ≠ 0),
                      gtLo] at hg2
                    exact hg2
                  exact hnone id hidlk hidk
              · -- the floor F is linked here with key above id's, contradicting
                -- that id's link is null
                refine hw (P L) hFl ?_
                rcases hid' with h0 | hr
                · rw [h0]
                  simp [SL.loOf, gtLo]
                · have hid0 : id ≠ 0 := by rcases hr with ⟨ha, _⟩; omega
                  have hidlk : s.linked id L := ⟨hr, hL⟩
                  have hidk : s.keyOf id < k := by
                    simp only [SL.loOf, if_neg hid0, gtLo] at hg
                    exact hg
                  have h5 := hmaxf id hidlk hidk
                  have hne : s.keyOf id ≠ s.keyOf (P L) :=
                    hInv.keys_distinct id (P L) hr hFl.1 hidP
                  simp only [SL.loOf, if_neg hid0, gtLo]
                  omega
          · rw [hv] at hw
            rcases hw with ⟨hwl, hwgt, hwmin⟩
            have hwne : w ≠ s.nodes.length := by rcases hwl with ⟨⟨_, hlt⟩, _⟩; omega
            refine ⟨(hlinked' w L).mpr (Or.inl hwl), ?_, ?_⟩
            · rw [hkey' w, if_neg hwne]
              exact hwgt
            · intro j hj hgt
              rw [hkey' w, if_neg hwne]
              rcases (hlinked' j L).mp hj with hold | ⟨hjn, hLh⟩
              · rw [hkey' j, if_neg (by rcases hold with ⟨⟨_, hlt⟩, _⟩; omega)] at hgt ⊢
                exact hwmin j hold hgt
              · rw [hkey' j, if_pos hjn] at hgt ⊢
                have hidP : id ≠ P L := fun hx => hsplice ⟨hLh, hx⟩
                rcases hPfloor L hLh with ⟨hP0, hnone⟩ | ⟨hFl, hFk, hmaxf⟩
                · exfalso
                  rcases hid' with h0 | hr
                  · exact hidP (h0.trans hP0.symm)
                  · have hid0 : id ≠ 0 := by rcases hr with ⟨ha, _⟩; omega
                    have hidlk : s.linked id L := ⟨hr, hL⟩
                    have hidk : s.keyOf id < k := by
                      simp only [SL.loOf, if_neg hid0, gtLo] at hgt
                      exact hgt
                    exact hnone id hidlk hidk
                · have h6 : s.keyOf w ≤ s.keyOf (P L) := by
                    refine hwmin (P L) hFl ?_
                    rcases hid' with h0 | hr
                    · rw [h0]
                      simp [SL.loOf, gtLo]
                    · have hid0 : id ≠ 0 := by rcases hr with ⟨ha, _⟩; omega
                      have hidlk : s.linked id L := ⟨hr, hL⟩
                      have hidk : s.keyOf id < k := by
                        simp only [SL.loOf, if_neg hid0, gtLo] at hgt
                        exact hgt
                      have h5 := hmaxf id hidlk hidk
                      have hne : s.keyOf id ≠ s.keyOf (P L) :=
                        hInv.keys_distinct id (P L) hr hFl.1 hidP
                      simp only [SL.loOf, if_neg hid0, gtLo]
                      omega
                  omega
  · exact hlen
  · -- the stored keys are the old keys with k appended
    apply List.ext_getElem?
    intro n
    rw [List.getElem?_map]
    by_cases hn : n < s.nodes.length
    · have hsome : s2.getNode n = some (s2.nodes[n]) := by
        apply List.getElem?_eq_some.mpr
        exact ⟨by omega, rfl⟩
      have h7 := SL.getNode_map_key s2 (j := n) (by omega)
      unfold SL.getNode at h7
      rw [h7, hkey' n, if_neg (by omega)]
      rw [List.getElem?_append_left (by simpa using hn)]
      rw [List.getElem?_map]
      have h8 := SL.getNode_map_key s hn
      unfold SL.getNode at h8
      rw [h8]
    · by_cases hn2 : n = s.nodes.length
      · have h7 := SL.getNode_map_key s2 (j := n) (by omega)
        unfold SL.getNode at h7
        rw [h7, hkey' n, if_pos hn2, hn2]
        have hconc : (s.nodes.map Node.key ++ [k])[(s.nodes.map Node.key).length]? = some k :=
          List.getElem?_concat_length _ _
        simpa using hconc
      · rw [List.getElem?_eq_none (by omega : s2.nodes.length ≤ n)]
        rw [List.getElem?_eq_none (by simp; omega)]
        simp
  · rw [hmax, SL.insertBase_maxHeight]

/-! ## The constructed list and build sequences -/

theorem empty_Inv : SL.empty.Inv := by
  refine ⟨?_, ?_, ?_, ?_, ?_, ?_, ?_⟩
  · simp [SL.empty]
  · simp [SL.empty, SL.heightOf, SL.getNode, headNode, Node.height, kMaxHeight]
  · simp [SL.empty]
  · simp [SL.empty, kMaxHeight]
  · intro j hj
    rcases hj with ⟨h1, h2⟩
    simp [SL.empty] at h2
    omega
  · intro i j hi _ _
    rcases hi with ⟨h1, h2⟩
    simp [SL.empty] at h2
    omega
  · intro id level hid hlev
    have hid0 : id = 0 := by
      rcases hid with h0 | ⟨h1, h2⟩
      · exact h0
      · simp [SL.empty] at h2
        omega
    subst hid0
    have hnone : SL.empty.nodeNext 0 level = none := by
      rcases Nat.lt_or_ge level kMaxHeight with hl | hl
      · simp [SL.nodeNext, SL.empty, SL.getNode, headNode, List.getElem?_replicate, hl]
      · simp [SL.nodeNext, SL.empty, SL.getNode, headNode, List.getElem?_replicate,
          Nat.not_lt.mpr hl]
    rw [hnone]
    intro j hj
    rcases hj with ⟨⟨h1, h2⟩, _⟩
    simp [SL.empty] at h2
    omega

theorem SL.keys_eq (s : SL) : s.keys = (s.nodes.map Node.key).drop 1 := by
  simp [SL.keys, List.map_drop]

theorem SL.mem_keys (s : SL) (x : Int) :
    x ∈ s.keys ↔ ∃ j, s.isReal j ∧ s.keyOf j = x := by
  rw [SL.keys_eq]
  constructor
  · intro hx
    rcases List.mem_iff_getElem?.mp hx with ⟨i, hi⟩
    rw [List.getElem?_drop, List.getElem?_map] at hi
    rcases ho : s.nodes[1 + i]? with _ | nd
    · rw [ho] at hi; cases hi
    · rw [ho] at hi
      refine ⟨1 + i, ⟨by omega, ?_⟩, ?_⟩
      · by_contra hc
        push_neg at hc
        rw [List.getElem?_eq_none hc] at ho
        cases ho
      · simp only [SL.keyOf, SL.getNode, ho, Option.map_some, Option.getD_some]
        exact Option.some.inj hi
  · rintro ⟨j, ⟨h1, h2⟩, hkey⟩
    apply List.mem_iff_getElem?.mpr
    refine ⟨j - 1, ?_⟩
    rw [List.getElem?_drop, List.getElem?_map]
    have hj : 1 + (j - 1) = j := by omega
    rw [hj]
    have h8 := SL.getNode_map_key s h2
    unfold SL.getNode at h8
    rw [h8, hkey]

theorem insert_keys (s : SL) (hInv : s.Inv) (k : Int) (h : Nat)
    (hfresh : ∀ j, s.isReal j → s.keyOf j ≠ k) (h1 : 1 ≤ h) (h12 : h ≤ kMaxHeight) :
    (s.insert k h).keys = s.keys ++ [k] := by
  rcases insert_spec s hInv k h hfresh h1 h12 with ⟨_, _, hmap, _⟩
  rw [SL.keys_eq, SL.keys_eq, hmap]
  rw [List.drop_append_of_le_length (by simp; exact hInv.head_lt)]

theorem buildFrom_spec :
    ∀ (l : List (Int × Nat)) (s : SL), s.Inv →
      (∀ x ∈ l.map Prod.fst, x ∉ s.keys) →
      (l.map Prod.fst).Nodup →
      (∀ p ∈ l, 1 ≤ p.2 ∧ p.2 ≤ kMaxHeight) →
      (buildFrom s l).Inv ∧ (buildFrom s l).keys = s.keys ++ l.map Prod.fst := by
  intro l
  induction l with
  | nil =>
    intro s hs _ _ _
    exact ⟨hs, by simp [buildFrom]⟩
  | cons p rest ih =>
    intro s hs hfr hnd hht
    have hfresh : ∀ j, s.isReal j → s.keyOf j ≠ p.1 := by
      intro j hj hc
      refine hfr p.1 (by simp) ?_
      exact (SL.mem_keys s p.1).mpr ⟨j, hj, hc⟩
    have hp := hht p (by simp)
    have hstep := insert_spec s hs p.1 p.2 hfresh hp.1 hp.2
    have hkeys := insert_keys s hs p.1 p.2 hfresh hp.1 hp.2
    have hbf : buildFrom s (p :: rest) = buildFrom (s.insert p.1 p.2) rest := rfl
    rw [hbf]
    have hnd' : (rest.map Prod.fst).Nodup := by
      simp only [List.map_cons, List.nodup_cons] at hnd
      exact hnd.2
    have hfr' : ∀ x ∈ rest.map Prod.fst, x ∉ (s.insert p.1 p.2).keys := by
      intro x hx
      rw [hkeys]
      intro hmem
      rcases List.mem_append.mp hmem with hmem1 | hmem2
      · exact hfr x (by simp only [List.map_cons]; exact List.mem_cons_of_mem _ hx) hmem1
      · have hxp : x = p.1 := by simpa using hmem2
        simp only [List.map_cons, List.nodup_cons] at hnd
        exact hnd.1 (hxp ▸ hx)
    have hht' : ∀ q ∈ rest, 1 ≤ q.2 ∧ q.2 ≤ kMaxHeight := by
      intro q hq
      exact hht q (List.mem_cons_of_mem _ hq)
    rcases ih (s.insert p.1 p.2) hstep.1 hfr' hnd' hht' with ⟨hinv2, hkeys2⟩
    refine ⟨hinv2, ?_⟩
    rw [hkeys2, hkeys]
    simp

theorem build_inv {l : List (Int × Nat)} (hg : GoodInserts l) :
    (build l).Inv ∧ (build l).keys = l.map Prod.fst := by
  have hempty : SL.empty.keys = [] := by simp [SL.keys, SL.empty]
  have h := buildFrom_spec l SL.empty empty_Inv
    (by intro x _; rw [hempty]; simp) hg.1 hg.2
  rw [hempty] at h
  simpa [build] using h

theorem geSpec_unique (s : SL) (hInv : s.Inv) (t : Int) :
    ∀ {r1 r2 : Option Nat}, s.geSpec t r1 → s.geSpec t r2 → r1 = r2 := by
  intro r1 r2 hr1 hr2
  match r1, r2 with
  | none, none => rfl
  | none, some b =>
    rcases hr2 with ⟨hb, hbt, _⟩
    exact absurd (hr1 b hb) (by omega)
  | some a, none =>
    rcases hr1 with ⟨ha, hat, _⟩
    exact absurd (hr2 a ha) (by omega)
  | some a, some b =>
    rcases hr1 with ⟨ha, hat, hamin⟩
    rcases hr2 with ⟨hb, hbt, hbmin⟩
    have h1 := hamin b hb hbt
    have h2 := hbmin a ha hat
    have hkey : s.keyOf a = s.keyOf b := by omega
    by_contra hne
    have hne2 : a ≠ b := fun hc => hne (by rw [hc])
    exact hInv.keys_distinct a b ha hb hne2 hkey

/-- A fixed insertion script used to instantiate the theorems on a concrete
input (the scenario of the specification: insert 10, 20, 5, 15). -/
def demoL : List (Int × Nat) := [(10, 1), (20, 3), (5, 2), (15, 1)]

instance (l : List (Int × Nat)) : Decidable (GoodInserts l) := by
  unfold GoodInserts
  infer_instance

/-- C1: for every sequence of distinct inserted keys and every target t,
Seek(t) positions the iterator at the node holding the smallest inserted key
greater than or equal to t (invalid if no such key exists), and Contains(t)
returns true exactly when t was previously inserted. -/
theorem seek_contains_correct (l : List (Int × Nat)) (hg : GoodInserts l) (t : Int) :
    ((build l).seek t = none ↔ (∀ x ∈ l.map Prod.fst, x < t)) ∧
    (∀ id, (build l).seek t = some id →
      (build l).keyOf id ∈ l.map Prod.fst ∧ t ≤ (build l).keyOf id ∧
      ∀ x ∈ l.map Prod.fst, t ≤ x → (build l).keyOf id ≤ x) ∧
    ((build l).contains t = true ↔ t ∈ l.map Prod.fst) := by
  rcases build_inv hg with ⟨hInv, hkeys⟩
  set s := build l with hs
  have hmem : ∀ x : Int, x ∈ l.map Prod.fst ↔ ∃ j, s.isReal j ∧ s.keyOf j = x := by
    intro x
    rw [← hkeys]
    exact SL.mem_keys s x
  have hge := (findGE_spec s hInv t).1
  refine ⟨?_, ?_, ?_⟩
  · constructor
    · intro hnone x hx
      rw [SL.seek] at hnone
      rw [hnone] at hge
      rcases (hmem x).mp hx with ⟨j, hj, hk⟩
      rw [← hk]
      exact hge j hj
    · intro hall
      rcases hseek : s.seek t with _ | id
      · rfl
      · rw [SL.seek] at hseek
        rw [hseek] at hge
        rcases hge with ⟨hid, hidt, _⟩
        have hmem2 : s.keyOf id ∈ l.map Prod.fst := (hmem _).mpr ⟨id, hid, rfl⟩
        have := hall _ hmem2
        omega
  · intro id hid
    rw [SL.seek] at hid
    rw [hid] at hge
    rcases hge with ⟨hidr, hidt, hmin⟩
    refine ⟨(hmem _).mpr ⟨id, hidr, rfl⟩, hidt, ?_⟩
    intro x hx hxt
    rcases (hmem x).mp hx with ⟨j, hj, hk⟩
    rw [← hk]
    exact hmin j hj (by omega)
  · rcases hseek : (s.findGE t).1 with _ | id
    · rw [hseek] at hge
      constructor
      · intro hc
        simp [SL.contains, hseek] at hc
      · intro hmem2
        rcases (hmem t).mp hmem2 with ⟨j, hj, hk⟩
        have := hge j hj
        omega
    · rw [hseek] at hge
      rcases hge with ⟨hidr, hidt, hmin⟩
      constructor
      · intro hc
        simp only [SL.contains, hseek, decide_eq_true_eq] at hc
        exact (hmem t).mpr ⟨id, hidr, hc⟩
      · intro hmem2
        rcases (hmem t).mp hmem2 with ⟨j, hj, hk⟩
        have h2 := hmin j hj (by omega)
        have hkeq : s.keyOf id = t := by omega
        simp [SL.contains, hseek, hkeq]

theorem seek_contains_correct_witness :
    ((build demoL).contains 10 = true ↔ (10 : Int) ∈ demoL.map Prod.fst) ∧
    ((build demoL).seek 21 = none ↔ (∀ x ∈ demoL.map Prod.fst, x < 21)) :=
  ⟨(seek_contains_correct demoL (by decide) 10).2.2,
   (seek_contains_correct demoL (by decide) 21).1⟩

/-- The greater-or-equal search started at an arbitrary level. -/
def SL.findGEFrom (s : SL) (t : Int) (lv : Nat) : Option Nat :=
  (s.findGEAux t s.runFuel 0 lv (fun _ => none)).1

/-- Contains computed from a search that starts at an arbitrary level. -/
def SL.containsFrom (s : SL) (t : Int) (lv : Nat) : Bool :=
  match s.findGEFrom t lv with
  | none => false
  | some id => decide (s.keyOf id = t)

/-- C4: starting the downward search at any stale height h with
1 ≤ h ≤ current maximum height yields the same result node as starting at
the current maximum height; Contains and Seek are unchanged. -/
theorem stale_height_search_agrees (l : List (Int × Nat)) (hg : GoodInserts l)
    (t : Int) (h : Nat) (h1 : 1 ≤ h) (h2 : h ≤ (build l).maxHeight) :
    (build l).findGEFrom t (h - 1) = (build l).seek t ∧
    (build l).containsFrom t (h - 1) = (build l).contains t := by
  rcases build_inv hg with ⟨hInv, _⟩
  set s := build l with hs
  have hlev : h - 1 < s.heightOf 0 := by
    rw [hInv.head_height]
    have := hInv.max_le
    simp only [kMaxHeight] at *
    omega
  have hfuel : (h - 1) + 1 + s.windowCard (s.loOf 0) t ≤ s.runFuel := by
    have hc := windowCard_le s (s.loOf 0) t
    have := hInv.max_le
    simp only [SL.runFuel, kMaxHeight] at *
    omega
  have hspec1 := (findGEAux_spec s t hInv s.runFuel 0 (h - 1) (fun _ => none)
    (Or.inl rfl) hlev hfuel).1
  have hspec2 := (findGE_spec s hInv t).1
  have heq : s.findGEFrom t (h - 1) = (s.findGE t).1 :=
    geSpec_unique s hInv t hspec1 hspec2
  refine ⟨heq, ?_⟩
  rw [SL.containsFrom, SL.contains, heq]

theorem stale_height_search_agrees_witness :
    (build demoL).findGEFrom 12 0 = (build demoL).seek 12 ∧
    (build demoL).containsFrom 12 0 = (build demoL).contains 12 :=
  stale_height_search_agrees demoL (by decide) 12 1 (by decide) (by decide)

/-! ## The level-0 forward traversal -/

/-- What a forward-iteration position with lower bound `lo` must be: the
minimum-key real node above `lo`, or invalid when none remains. -/
def SL.fwdSpec (s : SL) (lo : Option Int) : Option Nat → Prop
  | none => ∀ j, s.isReal j → ¬ gtLo lo (s.keyOf j)
  | some r => s.isReal r ∧ gtLo lo (s.keyOf r) ∧
      ∀ j, s.isReal j → gtLo lo (s.keyOf j) → s.keyOf r ≤ s.keyOf j

theorem linkSpec0_fwdSpec (s : SL) (hInv : s.Inv) (lo : Option Int)
    {r : Option Nat} (h : s.linkSpec 0 lo r) : s.fwdSpec lo r := by
  match r with
  | none =>
    intro j hj
    exact h j ⟨hj, (hInv.height_bounds j hj).1⟩
  | some a =>
    rcases h with ⟨hl, hgt, hmin⟩
    exact ⟨hl.1, hgt, fun j hj hg => hmin j ⟨hj, (hInv.height_bounds j hj).1⟩ hg⟩

theorem fwdSpec_next (s : SL) (hInv : s.Inv) {c : Nat} (hc : s.isReal c) :
    s.fwdSpec (some (s.keyOf c)) (s.nodeNext c 0) := by
  have h := hInv.links c 0 (Or.inr hc) (hInv.height_bounds c hc).1
  have hc0 : c ≠ 0 := by rcases hc with ⟨h1, _⟩; omega
  rw [SL.loOf, if_neg hc0] at h
  exact linkSpec0_fwdSpec s hInv _ h

theorem step0_none (s : SL) : s.step0 none = none := rfl

theorem upCard_mem {s : SL} {lo : Option Int} {j : Nat}
    (hj : s.isReal j) (hg : gtLo lo (s.keyOf j)) :
    j ∈ (Finset.range s.nodes.length).filter
      (fun i => 1 ≤ i ∧ gtLo lo (s.keyOf i)) := by
  simp only [Finset.mem_filter, Finset.mem_range]
  exact ⟨hj.2, hj.1, hg⟩

theorem chaseFwd (s : SL) (hInv : s.Inv) :
    ∀ (fuel : Nat) (lo : Option Int) (start : Option Nat),
      s.fwdSpec lo start → s.upCard lo ≤ fuel →
      (s.walkAux s.step0 fuel start).Pairwise (· < ·) ∧
      (∀ x, x ∈ s.walkAux s.step0 fuel start ↔
        ∃ j, s.isReal j ∧ gtLo lo (s.keyOf j) ∧ s.keyOf j = x) ∧
      (s.walkAux s.step0 fuel start).length = s.upCard lo ∧
      (∀ n, ((s.step0)^[n] start).isSome ↔ n < s.upCard lo) := by
  intro fuel
  induction fuel with
  | zero =>
    intro lo start hspec hfuel
    have hcard : s.upCard lo = 0 := by omega
    have hnone : start = none := by
      rcases hstart : start with _ | c
      · rfl
      · rw [hstart] at hspec
        rcases hspec with ⟨hc, hg, _⟩
        have hmem := upCard_mem hc hg
        have : 0 < s.upCard lo := Finset.card_pos.mpr ⟨c, hmem⟩
        omega
    subst hnone
    refine ⟨by simp [SL.walkAux], ?_, by simp [SL.walkAux, hcard], ?_⟩
    · intro x
      simp only [SL.walkAux, List.not_mem_nil, false_iff]
      rintro ⟨j, hj, hg, _⟩
      have : 0 < s.upCard lo := Finset.card_pos.mpr ⟨j, upCard_mem hj hg⟩
      omega
    · intro n
      rw [Function.iterate_fixed (step0_none s) n]
      simp [hcard]
  | succ f ih =>
    intro lo start hspec hfuel
    rcases hstart : start with _ | c
    · subst hstart
      have hcard : s.upCard lo = 0 := by
        by_contra hc
        rcases Finset.card_pos.mp (by omega : 0 < s.upCard lo) with ⟨j, hj⟩
        simp only [Finset.mem_filter, Finset.mem_range] at hj
        exact hspec j ⟨hj.2.1, hj.1⟩ hj.2.2
      refine ⟨by simp [SL.walkAux], ?_, by simp [SL.walkAux, hcard], ?_⟩
      · intro x
        simp only [SL.walkAux, List.not_mem_nil, false_iff]
        rintro ⟨j, hj, hg, _⟩
        exact hspec j hj hg
      · intro n
        rw [Function.iterate_fixed (step0_none s) n]
        simp [hcard]
    · subst hstart
      rcases hspec with ⟨hc, hg, hmin⟩
      have hcpos : 0 < s.upCard lo := Finset.card_pos.mpr ⟨c, upCard_mem hc hg⟩
      -- the window above c is the window above lo minus c itself
      have herase : (Finset.range s.nodes.length).filter
            (fun i => 1 ≤ i ∧ gtLo (some (s.keyOf c)) (s.keyOf i))
          = ((Finset.range s.nodes.length).filter
            (fun i => 1 ≤ i ∧ gtLo lo (s.keyOf i))).erase c := by
        ext j
        simp only [Finset.mem_filter, Finset.mem_range, Finset.mem_erase, gtLo]
        constructor
        · rintro ⟨hjl, hj1, hjk⟩
          refine ⟨fun hjc => ?_, hjl, hj1, gtLo_trans hg (le_of_lt hjk)⟩
          subst hjc
          exact absurd hjk (lt_irrefl _)
        · rintro ⟨hjc, hjl, hj1, hjg⟩
          refine ⟨hjl, hj1, ?_⟩
          have hne : s.keyOf j ≠ s.keyOf c :=
            fun hx => hjc (by
              by_contra hne2
              exact hInv.keys_distinct j c ⟨hj1, hjl⟩ hc hne2 hx)
          have := hmin j ⟨hj1, hjl⟩ hjg
          omega
      have hcard' : s.upCard (some (s.keyOf c)) = s.upCard lo - 1 := by
        unfold SL.upCard
        rw [herase, Finset.card_erase_of_mem (upCard_mem hc hg)]
      rcases ih (some (s.keyOf c)) (s.nodeNext c 0) (fwdSpec_next s hInv hc)
        (by omega) with ⟨ihpw, ihmem, ihlen, ihiter⟩
      have hwalk : s.walkAux s.step0 (f+1) (some c)
          = s.keyOf c :: s.walkAux s.step0 f (s.nodeNext c 0) := rfl
      rw [hwalk]
      refine ⟨?_, ?_, ?_, ?_⟩
      · rw [List.pairwise_cons]
        refine ⟨?_, ihpw⟩
        intro x hx
        rcases (ihmem x).mp hx with ⟨j, _, hjg, hjx⟩
        simp only [gtLo] at hjg
        omega
      · intro x
        simp only [List.mem_cons, ihmem]
        constructor
        · rintro (hx | ⟨j, hjr, hjg, hjx⟩)
          · exact ⟨c, hc, hg, hx.symm⟩
          · simp only [gtLo] at hjg
            exact ⟨j, hjr, gtLo_trans hg (by omega), hjx⟩
        · rintro ⟨j, hjr, hjg, hjx⟩
          rcases eq_or_ne j c with hjc | hjc
          · left
            rw [← hjx, hjc]
          · right
            have hne : s.keyOf j ≠ s.keyOf c :=
              fun hx => hInv.keys_distinct j c hjr hc hjc hx
            have := hmin j hjr hjg
            exact ⟨j, hjr, by simp only [gtLo]; omega, hjx⟩
      · simp only [List.length_cons, ihlen, hcard']
        omega
      · intro n
        cases n with
        | zero => simpa using hcpos
        | succ m =>
          rw [Function.iterate_succ_apply]
          have hstep : s.step0 (some c) = s.nodeNext c 0 := rfl
          rw [hstep, ihiter m, hcard']
          omega

/-- C2: an iterator driven by SeekToFirst then repeated Next visits every
inserted key exactly once, in strictly increasing order, and becomes invalid
exactly after the last key. -/
theorem iter_forward_correct (l : List (Int × Nat)) (hg : GoodInserts l) :
    ((build l).scanKeys).Pairwise (· < ·) ∧
    ((build l).scanKeys).Perm (l.map Prod.fst) ∧
    (∀ n, ((build l).posAfter n).isSome ↔ n < (l.map Prod.fst).length) := by
  rcases build_inv hg with ⟨hInv, hkeys⟩
  set s := build l with hs
  have hstart : s.fwdSpec none s.seekToFirst := by
    have h := hInv.links 0 0 (Or.inl rfl) (by rw [hInv.head_height]; simp [kMaxHeight])
    rw [SL.loOf, if_pos rfl] at h
    exact linkSpec0_fwdSpec s hInv _ h
  have hcard : s.upCard none = (l.map Prod.fst).length := by
    have hfilter : (Finset.range s.nodes.length).filter
          (fun i => 1 ≤ i ∧ gtLo none (s.keyOf i))
        = (Finset.range s.nodes.length).erase 0 := by
      ext j
      simp only [Finset.mem_filter, Finset.mem_range, Finset.mem_erase]
      constructor
      · rintro ⟨hjl, hj1, _⟩
        exact ⟨by omega, hjl⟩
      · rintro ⟨hj0, hjl⟩
        exact ⟨hjl, by omega, trivial⟩
    have hlen : (l.map Prod.fst).length = s.keys.length := by rw [hkeys]
    rw [SL.upCard, hfilter, Finset.card_erase_of_mem (by
      simp only [Finset.mem_range]
      exact hInv.head_lt), Finset.card_range, hlen]
    rw [SL.keys_eq]
    simp
  have hfuel : s.upCard none ≤ s.nodes.length := upCard_le s none
  rcases chaseFwd s hInv s.nodes.length none s.seekToFirst hstart hfuel with
    ⟨hpw, hmem, hlen, hiter⟩
  refine ⟨hpw, ?_, ?_⟩
  · have hnd1 : ((build l).scanKeys).Nodup := hpw.imp (fun hab => ne_of_lt hab)
    have hnd2 : (l.map Prod.fst).Nodup := hg.1
    have hmemiff : ∀ x, x ∈ (build l).scanKeys ↔ x ∈ l.map Prod.fst := by
      intro x
      rw [← hs]
      unfold SL.scanKeys
      rw [hmem x, ← hkeys, SL.mem_keys]
      constructor
      · rintro ⟨j, hj, _, hx⟩
        exact ⟨j, hj, hx⟩
      · rintro ⟨j, hj, hx⟩
        exact ⟨j, hj, trivial, hx⟩
    exact (List.subperm_of_subset hnd1 (fun x hx => (hmemiff x).mp hx)).antisymm
      (List.subperm_of_subset hnd2 (fun x hx => (hmemiff x).mpr hx))
  · intro n
    rw [← hcard]
    exact hiter n

theorem iter_forward_correct_witness :
    ((build demoL).scanKeys).Pairwise (· < ·) ∧
    ((build demoL).scanKeys).Perm (demoL.map Prod.fst) :=
  ⟨(iter_forward_correct demoL (by decide)).1,
   (iter_forward_correct demoL (by decide)).2.1⟩

/-! ## The backward traversal -/

/-- A strict upper bound, `none` meaning plus infinity. -/
def ltHi : Option Int → Int → Prop
  | none, _ => True
  | some b, k => k < b

instance (hi : Option Int) (k : Int) : Decidable (ltHi hi k) :=
  match hi with
  | none => isTrue trivial
  | some b => inferInstanceAs (Decidable (k < b))

/-- What a backward-iteration position with upper bound `hi` must be: the
maximum-key real node below `hi`, or invalid when none remains. -/
def SL.backSpec (s : SL) (hi : Option Int) : Option Nat → Prop
  | none => ∀ j, s.isReal j → ¬ ltHi hi (s.keyOf j)
  | some r => s.isReal r ∧ ltHi hi (s.keyOf r) ∧
      ∀ j, s.isReal j → ltHi hi (s.keyOf j) → s.keyOf j ≤ s.keyOf r

/-- The number of real nodes with key below `hi`. -/
def SL.downCard (s : SL) (hi : Option Int) : Nat :=
  ((Finset.range s.nodes.length).filter
    (fun j => 1 ≤ j ∧ ltHi hi (s.keyOf j))).card

theorem backSpec_prev (s : SL) (hInv : s.Inv) {c : Nat} (hc : s.isReal c) :
    s.backSpec (some (s.keyOf c)) (s.prevOp c) := by
  have h := findLessThan_spec s hInv (s.keyOf c)
  unfold SL.prevOp
  rcases h with ⟨h0, hnone⟩ | ⟨hreal, hlt, hmax⟩
  · rw [if_pos h0]
    intro j hj
    simp only [ltHi]
    exact fun hg => hnone j hj hg
  · rw [if_neg (by rcases hreal with ⟨h1, _⟩; omega)]
    exact ⟨hreal, hlt, fun j hj hg => hmax j hj hg⟩

theorem backSpec_start (s : SL) (hInv : s.Inv) :
    s.backSpec none s.seekToLast := by
  have h := findLast_spec s hInv
  unfold SL.seekToLast
  rcases h with ⟨h0, hnone⟩ | ⟨hreal, hmax⟩
  · rw [if_pos h0]
    intro j hj
    exact absurd hj (hnone j)
  · rw [if_neg (by rcases hreal with ⟨h1, _⟩; omega)]
    exact ⟨hreal, trivial, fun j hj _ => hmax j hj⟩

theorem stepBack_none (s : SL) : s.stepBack none = none := rfl

theorem downCard_mem {s : SL} {hi : Option Int} {j : Nat}
    (hj : s.isReal j) (hg : ltHi hi (s.keyOf j)) :
    j ∈ (Finset.range s.nodes.length).filter
      (fun i => 1 ≤ i ∧ ltHi hi (s.keyOf i)) := by
  simp only [Finset.mem_filter, Finset.mem_range]
  exact ⟨hj.2, hj.1, hg⟩

theorem ltHi_trans {hi : Option Int} {a b : Int} (h : ltHi hi a) (hab : b ≤ a) :
    ltHi hi b := by
  cases hi with
  | none => trivial
  | some c => exact lt_of_le_of_lt hab h

theorem chaseBack (s : SL) (hInv : s.Inv) :
    ∀ (fuel : Nat) (hi : Option Int) (start : Option Nat),
      s.backSpec hi start → s.downCard hi ≤ fuel →
      (s.walkAux s.stepBack fuel start).Pairwise (· > ·) ∧
      (∀ x, x ∈ s.walkAux s.stepBack fuel start ↔
        ∃ j, s.isReal j ∧ ltHi hi (s.keyOf j) ∧ s.keyOf j = x) ∧
      (s.walkAux s.stepBack fuel start).length = s.downCard hi ∧
      (∀ n, ((s.stepBack)^[n] start).isSome ↔ n < s.downCard hi) := by
  intro fuel
  induction fuel with
  | zero =>
    intro hi start hspec hfuel
    have hcard : s.downCard hi = 0 := by omega
    have hnone : start = none := by
      rcases hstart : start with _ | c
      · rfl
      · rw [hstart] at hspec
        rcases hspec with ⟨hc, hg, _⟩
        have : 0 < s.downCard hi := Finset.card_pos.mpr ⟨c, downCard_mem hc hg⟩
        omega
    subst hnone
    refine ⟨by simp [SL.walkAux], ?_, by simp [SL.walkAux, hcard], ?_⟩
    · intro x
      simp only [SL.walkAux, List.not_mem_nil, false_iff]
      rintro ⟨j, hj, hg, _⟩
      have : 0 < s.downCard hi := Finset.card_pos.mpr ⟨j, downCard_mem hj hg⟩
      omega
    · intro n
      rw [Function.iterate_fixed (stepBack_none s) n]
      simp [hcard]
  | succ f ih =>
    intro hi start hspec hfuel
    rcases hstart : start with _ | c
    · subst hstart
      have hcard : s.downCard hi = 0 := by
        by_contra hc
        rcases Finset.card_pos.mp (by omega : 0 < s.downCard hi) with ⟨j, hj⟩
        simp only [Finset.mem_filter, Finset.mem_range] at hj
        exact hspec j ⟨hj.2.1, hj.1⟩ hj.2.2
      refine ⟨by simp [SL.walkAux], ?_, by simp [SL.walkAux, hcard], ?_⟩
      · intro x
        simp only [SL.walkAux, List.not_mem_nil, false_iff]
        rintro ⟨j, hj, hg, _⟩
        exact hspec j hj hg
      · intro n
        rw [Function.iterate_fixed (stepBack_none s) n]
        simp [hcard]
    · subst hstart
      rcases hspec with ⟨hc, hg, hmax⟩
      have hcpos : 0 < s.downCard hi := Finset.card_pos.mpr ⟨c, downCard_mem hc hg⟩
      have herase : (Finset.range s.nodes.length).filter
            (fun i => 1 ≤ i ∧ ltHi (some (s.keyOf c)) (s.keyOf i))
          = ((Finset.range s.nodes.length).filter
            (fun i => 1 ≤ i ∧ ltHi hi (s.keyOf i))).erase c := by
        ext j
        simp only [Finset.mem_filter, Finset.mem_range, Finset.mem_erase, ltHi]
        constructor
        · rintro ⟨hjl, hj1, hjk⟩
          refine ⟨fun hjc => ?_, hjl, hj1, ltHi_trans hg (le_of_lt hjk)⟩
          subst hjc
          exact absurd hjk (lt_irrefl _)
        · rintro ⟨hjc, hjl, hj1, hjg⟩
          refine ⟨hjl, hj1, ?_⟩
          have hne : s.keyOf j ≠ s.keyOf c :=
            fun hx => hjc (by
              by_contra hne2
              exact hInv.keys_distinct j c ⟨hj1, hjl⟩ hc hne2 hx)
          have := hmax j ⟨hj1, hjl⟩ hjg
          omega
      have hcard' : s.downCard (some (s.keyOf c)) = s.downCard hi - 1 := by
        unfold SL.downCard
        rw [herase, Finset.card_erase_of_mem (downCard_mem hc hg)]
      rcases ih (some (s.keyOf c)) (s.prevOp c) (backSpec_prev s hInv hc)
        (by omega) with ⟨ihpw, ihmem, ihlen, ihiter⟩
      have hwalk : s.walkAux s.stepBack (f+1) (some c)
          = s.keyOf c :: s.walkAux s.stepBack f (s.prevOp c) := rfl
      rw [hwalk]
      refine ⟨?_, ?_, ?_, ?_⟩
      · rw [List.pairwise_cons]
        refine ⟨?_, ihpw⟩
        intro x hx
        rcases (ihmem x).mp hx with ⟨j, _, hjg, hjx⟩
        simp only [ltHi] at hjg
        omega
      · intro x
        simp only [List.mem_cons, ihmem]
        constructor
        · rintro (hx | ⟨j, hjr, hjg, hjx⟩)
          · exact ⟨c, hc, hg, hx.symm⟩
          · simp only [ltHi] at hjg
            exact ⟨j, hjr, ltHi_trans hg (by omega), hjx⟩
        · rintro ⟨j, hjr, hjg, hjx⟩
          rcases eq_or_ne j c with hjc | hjc
          · left
            rw [← hjx, hjc]
          · right
            have hne : s.keyOf j ≠ s.keyOf c :=
              fun hx => hInv.keys_distinct j c hjr hc hjc hx
            have := hmax j hjr hjg
            exact ⟨j, hjr, by simp only [ltHi]; omega, hjx⟩
      · simp only [List.length_cons, ihlen, hcard']
        omega
      · intro n
        cases n with
        | zero => simpa using hcpos
        | succ m =>
          rw [Function.iterate_succ_apply]
          have hstep : s.stepBack (some c) = s.prevOp c := rfl
          rw [hstep, ihiter m, hcard']
          omega

/-- C7: starting from SeekToLast and repeatedly calling Prev visits all the
inserted keys in strictly descending order, becoming invalid exactly once
after the smallest key; on an empty list SeekToLast already leaves the
iterator invalid. -/
theorem iter_backward_correct (l : List (Int × Nat)) (hg : GoodInserts l) :
    ((build l).backScanKeys).Pairwise (· > ·) ∧
    ((build l).backScanKeys).Perm (l.map Prod.fst) ∧
    (∀ n, ((build l).posBackAfter n).isSome ↔ n < (l.map Prod.fst).length) ∧
    (l = [] → (build l).seekToLast = none) := by
  rcases build_inv hg with ⟨hInv, hkeys⟩
  set s := build l with hs
  have hstart := backSpec_start s hInv
  have hcard : s.downCard none = (l.map Prod.fst).length := by
    have hfilter : (Finset.range s.nodes.length).filter
          (fun i => 1 ≤ i ∧ ltHi none (s.keyOf i))
        = (Finset.range s.nodes.length).erase 0 := by
      ext j
      simp only [Finset.mem_filter, Finset.mem_range, Finset.mem_erase]
      constructor
      · rintro ⟨hjl, hj1, _⟩
        exact ⟨by omega, hjl⟩
      · rintro ⟨hj0, hjl⟩
        exact ⟨hjl, by omega, trivial⟩
    have hlen : (l.map Prod.fst).length = s.keys.length := by rw [hkeys]
    rw [SL.downCard, hfilter, Finset.card_erase_of_mem (by
      simp only [Finset.mem_range]
      exact hInv.head_lt), Finset.card_range, hlen]
    rw [SL.keys_eq]
    simp
  have hfuel : s.downCard none ≤ s.nodes.length := by
    refine le_trans (Finset.card_filter_le _ _) ?_
    simp
  rcases chaseBack s hInv s.nodes.length none s.seekToLast hstart hfuel with
    ⟨hpw, hmem, hlen, hiter⟩
  refine ⟨hpw, ?_, ?_, ?_⟩
  · have hnd1 : ((build l).backScanKeys).Nodup := hpw.imp (fun hab => ne_of_gt hab)
    have hnd2 : (l.map Prod.fst).Nodup := hg.1
    have hmemiff : ∀ x, x ∈ (build l).backScanKeys ↔ x ∈ l.map Prod.fst := by
      intro x
      rw [← hs]
      unfold SL.backScanKeys
      rw [hmem x, ← hkeys, SL.mem_keys]
      constructor
      · rintro ⟨j, hj, _, hx⟩
        exact ⟨j, hj, hx⟩
      · rintro ⟨j, hj, hx⟩
        exact ⟨j, hj, trivial, hx⟩
    exact (List.subperm_of_subset hnd1 (fun x hx => (hmemiff x).mp hx)).antisymm
      (List.subperm_of_subset hnd2 (fun x hx => (hmemiff x).mpr hx))
  · intro n
    rw [← hcard]
    exact hiter n
  · intro hl
    have h0 := hiter 0
    rw [hcard] at h0
    simp only [hl] at h0
    rcases hlast : s.seekToLast with _ | c
    · rfl
    · rw [Function.iterate_zero_apply, hlast] at h0
      simp [hl] at h0

theorem iter_backward_correct_witness :
    ((build demoL).backScanKeys).Pairwise (· > ·) ∧
    ((build demoL).backScanKeys).Perm (demoL.map Prod.fst) :=
  ⟨(iter_backward_correct demoL (by decide)).1,
   (iter_backward_correct demoL (by decide)).2.1⟩

/-! ## The per-level chains -/

/-- The number of nodes linked at level `L` with key above `lo`. -/
def SL.levelCard (s : SL) (L : Nat) (lo : Option Int) : Nat :=
  ((Finset.range s.nodes.length).filter
    (fun j => s.linked j L ∧ gtLo lo (s.keyOf j))).card

theorem levelCard_mem {s : SL} {L : Nat} {lo : Option Int} {j : Nat}
    (hj : s.linked j L) (hg : gtLo lo (s.keyOf j)) :
    j ∈ (Finset.range s.nodes.length).filter
      (fun i => s.linked i L ∧ gtLo lo (s.keyOf i)) := by
  simp only [Finset.mem_filter, Finset.mem_range]
  exact ⟨hj.1.2, hj, hg⟩

theorem SL.nodeNext_ge_height (s : SL) {id l : Nat} (h : s.heightOf id ≤ l) :
    s.nodeNext id l = none := by
  rcases hn : s.getNode id with _ | n
  · exact s.nodeNext_eq_none hn l
  · rw [s.nodeNext_eq hn l]
    have hh : s.heightOf id = n.next.length := by
      simp [SL.heightOf, hn, Node.height]
    rw [List.getElem?_eq_none (by omega)]
    rfl

theorem SL.chainAux_none (s : SL) (L : Nat) (fuel : Nat) :
    s.chainAux L fuel none = [] := by
  cases fuel <;> rfl

theorem chaseChain (s : SL) (hInv : s.Inv) (L : Nat) :
    ∀ (fuel : Nat) (lo : Option Int) (start : Option Nat),
      s.linkSpec L lo start → s.levelCard L lo ≤ fuel →
      (∀ j ∈ s.chainAux L fuel start, s.linked j L ∧ gtLo lo (s.keyOf j)) ∧
      (∀ j, s.linked j L → gtLo lo (s.keyOf j) → j ∈ s.chainAux L fuel start) ∧
      (s.chainAux L fuel start).Pairwise (fun a b => s.keyOf a < s.keyOf b) := by
  intro fuel
  induction fuel with
  | zero =>
    intro lo start hspec hfuel
    have hcard : s.levelCard L lo = 0 := by omega
    have hnone : start = none := by
      rcases hstart : start with _ | c
      · rfl
      · rw [hstart] at hspec
        rcases hspec with ⟨hc, hg, _⟩
        have : 0 < s.levelCard L lo := Finset.card_pos.mpr ⟨c, levelCard_mem hc hg⟩
        omega
    subst hnone
    rw [s.chainAux_none]
    refine ⟨by simp, ?_, by simp⟩
    intro j hj hg
    have : 0 < s.levelCard L lo := Finset.card_pos.mpr ⟨j, levelCard_mem hj hg⟩
    omega
  | succ f ih =>
    intro lo start hspec hfuel
    rcases hstart : start with _ | c
    · subst hstart
      rw [s.chainAux_none]
      refine ⟨by simp, ?_, by simp⟩
      intro j hj hg
      exact absurd hg (hspec j hj)
    · subst hstart
      rcases hspec with ⟨hc, hg, hmin⟩
      have hcpos : 0 < s.levelCard L lo := Finset.card_pos.mpr ⟨c, levelCard_mem hc hg⟩
      have hc0 : c ≠ 0 := by rcases hc with ⟨⟨h1, _⟩, _⟩; omega
      have hnextspec : s.linkSpec L (some (s.keyOf c)) (s.nodeNext c L) := by
        have h := hInv.links c L (Or.inr hc.1) hc.2
        rwa [SL.loOf, if_neg hc0] at h
      have herase : (Finset.range s.nodes.length).filter
            (fun i => s.linked i L ∧ gtLo (some (s.keyOf c)) (s.keyOf i))
          = ((Finset.range s.nodes.length).filter
            (fun i => s.linked i L ∧ gtLo lo (s.keyOf i))).erase c := by
        ext j
        simp only [Finset.mem_filter, Finset.mem_range, Finset.mem_erase, gtLo]
        constructor
        · rintro ⟨hjl, hjlk, hjk⟩
          refine ⟨fun hjc => ?_, hjl, hjlk, gtLo_trans hg (le_of_lt hjk)⟩
          subst hjc
          exact absurd hjk (lt_irrefl _)
        · rintro ⟨hjc, hjl, hjlk, hjg⟩
          refine ⟨hjl, hjlk, ?_⟩
          have hne : s.keyOf j ≠ s.keyOf c :=
            fun hx => hjc (by
              by_contra hne2
              exact hInv.keys_distinct j c hjlk.1 hc.1 hne2 hx)
          have := hmin j hjlk hjg
          omega
      have hcard' : s.levelCard L (some (s.keyOf c)) = s.levelCard L lo - 1 := by
        unfold SL.levelCard
        rw [herase, Finset.card_erase_of_mem (levelCard_mem hc hg)]
      rcases ih (some (s.keyOf c)) (s.nodeNext c L) hnextspec (by omega) with
        ⟨ihin, ihall, ihpw⟩
      have hchain : s.chainAux L (f+1) (some c)
          = c :: s.chainAux L f (s.nodeNext c L) := rfl
      rw [hchain]
      refine ⟨?_, ?_, ?_⟩
      · intro j hj
        rcases List.mem_cons.mp hj with hjc | hjm
        · subst hjc
          exact ⟨hc, hg⟩
        · rcases ihin j hjm with ⟨hjl, hjg⟩
          simp only [gtLo] at hjg
          exact ⟨hjl, gtLo_trans hg (by omega)⟩
      · intro j hjl hjg
        rcases eq_or_ne j c with hjc | hjc
        · subst hjc
          exact List.mem_cons_self _ _
        · refine List.mem_cons_of_mem _ (ihall j hjl ?_)
          have hne : s.keyOf j ≠ s.keyOf c :=
            fun hx => hInv.keys_distinct j c hjl.1 hc.1 hjc hx
          have := hmin j hjl hjg
          simp only [gtLo]
          omega
      · rw [List.pairwise_cons]
        refine ⟨?_, ihpw⟩
        intro j hj
        have := (ihin j hj).2
        simpa [gtLo] using this

/-- A strictly key-sorted list of ids is a sublist of any strictly key-sorted
list of ids containing it. -/
theorem sublist_of_sorted_subset (f : Nat → Int) :
    ∀ (l2 l1 : List Nat), l1.Pairwise (fun a b => f a < f b) →
      l2.Pairwise (fun a b => f a < f b) →
      (∀ x ∈ l1, x ∈ l2) → l1.Sublist l2 := by
  intro l2
  induction l2 with
  | nil =>
    intro l1 _ _ hsub
    cases l1 with
    | nil => exact List.Sublist.refl []
    | cons a l => exact absurd (hsub a (by simp)) (by simp)
  | cons b l2' ih =>
    intro l1 h1 h2 hsub
    cases l1 with
    | nil => exact List.nil_sublist _
    | cons a l1' =>
      rcases List.pairwise_cons.mp h1 with ⟨h1head, h1tail⟩
      rcases List.pairwise_cons.mp h2 with ⟨h2head, h2tail⟩
      by_cases hab : a = b
      · subst hab
        apply List.Sublist.cons₂
        apply ih l1' h1tail h2tail
        intro x hx
        have hxl2 := hsub x (List.mem_cons_of_mem _ hx)
        rcases List.mem_cons.mp hxl2 with hxa | hxm
        · exfalso
          have := h1head x hx
          rw [hxa] at this
          exact absurd this (lt_irrefl _)
        · exact hxm
      · have hal2' : a ∈ l2' := by
          rcases List.mem_cons.mp (hsub a (List.mem_cons_self _ _)) with hxa | hxm
          · exact absurd hxa hab
          · exact hxm
        apply List.Sublist.cons
        apply ih (a :: l1') h1 h2tail
        intro x hx
        rcases List.mem_cons.mp (hsub x hx) with hxb | hxm
        · exfalso
          have hba : f b < f a := h2head a hal2'
          rcases List.mem_cons.mp hx with hxa | hxm2
          · exact hab (hxa.symm.trans hxb)
          · have hax : f a < f x := h1head x hxm2
            rw [hxb] at hax
            omega
        · exact hxm

/-- C5: for every level L, the chain of nodes reachable by level-L links from
the head is strictly increasing by key and is a sublist of the level-(L-1)
chain; this holds for the empty list and for every state built by Insert. -/
theorem level_chain_invariant (l : List (Int × Nat)) (hg : GoodInserts l) :
    (∀ L, ((build l).chainL L).Pairwise
      (fun a b => (build l).keyOf a < (build l).keyOf b)) ∧
    (∀ L, 1 ≤ L → ((build l).chainL L).Sublist ((build l).chainL (L - 1))) := by
  rcases build_inv hg with ⟨hInv, _⟩
  set s := build l with hs
  have hchain : ∀ L, L < kMaxHeight →
      (∀ j ∈ s.chainL L, s.linked j L) ∧
      (∀ j, s.linked j L → j ∈ s.chainL L) ∧
      (s.chainL L).Pairwise (fun a b => s.keyOf a < s.keyOf b) := by
    intro L hL
    have hstart : s.linkSpec L (s.loOf 0) (s.nodeNext 0 L) :=
      hInv.links 0 L (Or.inl rfl) (by rw [hInv.head_height]; exact hL)
    rw [SL.loOf, if_pos rfl] at hstart
    have hfuel : s.levelCard L none ≤ s.nodes.length := by
      refine le_trans (Finset.card_filter_le _ _) ?_
      simp
    rcases chaseChain s hInv L s.nodes.length none (s.nodeNext 0 L) hstart hfuel with
      ⟨hin, hall, hpw⟩
    exact ⟨fun j hj => (hin j hj).1, fun j hj => hall j hj trivial, hpw⟩
  have hempty : ∀ L, kMaxHeight ≤ L → s.chainL L = [] := by
    intro L hL
    unfold SL.chainL
    rw [s.nodeNext_ge_height (by rw [hInv.head_height]; omega), s.chainAux_none]
  constructor
  · intro L
    rcases Nat.lt_or_ge L kMaxHeight with hL | hL
    · exact (hchain L hL).2.2
    · rw [hempty L hL]
      exact List.Pairwise.nil
  · intro L hL1
    rcases Nat.lt_or_ge L kMaxHeight with hL | hL
    · have hLm : L - 1 < kMaxHeight := by omega
      rcases hchain L hL with ⟨hin, _, hpw⟩
      rcases hchain (L - 1) hLm with ⟨_, hall', hpw'⟩
      apply sublist_of_sorted_subset s.keyOf _ _ hpw hpw'
      intro x hx
      have hxl := hin x hx
      refine hall' x ⟨hxl.1, ?_⟩
      have := hxl.2
      omega
    · rw [hempty L hL]
      exact List.nil_sublist _

theorem level_chain_invariant_witness :
    ((build demoL).chainL 1).Sublist ((build demoL).chainL 0) :=
  (level_chain_invariant demoL (by decide)).2 1 (by decide)

/-! ## Iterator construction and boundary behavior -/

/-- C10: a newly constructed iterator is invalid; Next/Prev/GetKey on it hit
the Valid() assertion instead of producing a position; the three positioning
operations are total and leave the iterator invalid at a boundary (empty
list, or target beyond the largest key) rather than aborting. -/
theorem iterator_initial_invalid (l : List (Int × Nat)) (hg : GoodInserts l)
    (t : Int) :
    iterValid iterInit = false ∧
    ((build l).iterNextChecked iterInit = none ∧
     (build l).iterPrevChecked iterInit = none ∧
     (build l).iterKeyChecked iterInit = none) ∧
    (l = [] → (build l).seekToFirst = none ∧ (build l).seekToLast = none ∧
      (build l).seek t = none) ∧
    ((∀ x ∈ l.map Prod.fst, x < t) → (build l).seek t = none) := by
  rcases build_inv hg with ⟨hInv, hkeys⟩
  have hbound : ∀ x ∈ l.map Prod.fst, x < t → True := fun _ _ _ => trivial
  have hseeknone : (∀ x ∈ l.map Prod.fst, x < t) → (build l).seek t = none := by
    intro hall
    have hge := (findGE_spec (build l) hInv t).1
    rcases hseek : ((build l).findGE t).1 with _ | id
    · show ((build l).findGE t).1 = none
      exact hseek
    · rw [hseek] at hge
      rcases hge with ⟨hid, hidt, _⟩
      have hmem : (build l).keyOf id ∈ l.map Prod.fst := by
        rw [← hkeys]
        exact (SL.mem_keys _ _).mpr ⟨id, hid, rfl⟩
      have := hall _ hmem
      omega
  refine ⟨rfl, ⟨rfl, rfl, rfl⟩, ?_, hseeknone⟩
  intro hl
  subst hl
  refine ⟨by decide, by decide, ?_⟩
  exact hseeknone (by simp)

theorem iterator_initial_invalid_witness :
    iterValid iterInit = false ∧ (build demoL).seek 100 = none :=
  ⟨(iterator_initial_invalid demoL (by decide) 100).1,
   (iterator_initial_invalid demoL (by decide) 100).2.2.2 (by decide)⟩

/-! ## The divergent FindGreaterOrEqual of skiplist.cc -/

/-- C6: on a fresh (empty) skip list — exactly the state of the first
Insert — skiplist.cc's FindGreaterOrEqual returns without writing any
predecessor entry: the entry at level 0 still holds whatever the caller's
uninitialized array held, while skiplist.h's version records the head
(node id 0) as documented.  The two definitions therefore disagree. -/
theorem cc_findGE_prev_unwritten (p0 : Nat → Option Nat) :
    (SL.empty.ccFindGE 10 p0).2 0 = p0 0 ∧
    (SL.empty.findGE 10).2 0 = some 0 ∧
    (SL.empty.ccFindGE 10 p0).1 = (SL.empty.findGE 10).1 := by
  refine ⟨rfl, by decide, rfl⟩

/-! ## Assertion behavior on contract violations -/

/-- C8 (amended): duplicate-key Insert fails the duplicate assertion;
Next, Prev, and GetKey on an invalid iterator fail the Valid() assertion;
a zero-byte request fails the assertion in Arena::Allocate.
(Arena::AllocateAligned performs no zero-byte assertion — see the
counterexample — which is the one divergence from the claim as stated.) -/
theorem contract_violations_assert (l : List (Int × Nat)) (hg : GoodInserts l)
    (k : Int) (h : Nat) (hk : k ∈ l.map Prod.fst) :
    (build l).insertChecked k h = none ∧
    (build l).iterNextChecked iterInit = none ∧
    (build l).iterPrevChecked iterInit = none ∧
    (build l).iterKeyChecked iterInit = none ∧
    (∀ a : Arena, a.allocate 0 = none) := by
  rcases build_inv hg with ⟨hInv, hkeys⟩
  refine ⟨?_, rfl, rfl, rfl, ?_⟩
  · have hge := (findGE_spec (build l) hInv k).1
    have hmem : k ∈ (build l).keys := by rw [hkeys]; exact hk
    rcases (SL.mem_keys _ _).mp hmem with ⟨j, hj, hjk⟩
    rcases hseek : ((build l).findGE k).1 with _ | id
    · rw [hseek] at hge
      have := hge j hj
      omega
    · rw [hseek] at hge
      rcases hge with ⟨hid, hidt, hmin⟩
      have h2 := hmin j hj (by omega)
      have hkeq : (build l).keyOf id = k := by omega
      simp [SL.insertChecked, hseek, hkeq]
  · intro a
    simp [Arena.allocate]

theorem contract_violations_assert_witness :
    (build demoL).insertChecked 10 1 = none ∧ Arena.init.allocate 0 = none :=
  ⟨(contract_violations_assert demoL (by decide) 10 1 (by decide)).1,
   (contract_violations_assert demoL (by decide) 10 1 (by decide)).2.2.2.2 Arena.init⟩

/-- C8 counterexample: AllocateAligned(0) does NOT fail an assertion — on a
fresh arena it returns successfully (the null cursor, unchanged state),
refuting the claim that a zero-byte request asserts in AllocateAligned too. -/
theorem allocateAligned_zero_no_assert :
    Arena.init.allocateAligned 0 = some (0, Arena.init) := by decide

/-! ## The arena fallback policy -/

/-- C9: an allocation that does not fit the current block either gets a
dedicated block of exactly the requested size (when the request exceeds a
quarter of the 4096-byte standard block), leaving the bump cursor and the
remaining-byte count untouched, or gets a fresh standard block that becomes
the current one, the request served from its front and the old block's
leftover discarded. -/
theorem arena_fallback_policy (a : Arena) (bytes : Nat) (h0 : 0 < bytes)
    (hnofit : a.allocBytesRemaining < bytes) :
    (kBlockSize / 4 < bytes →
      ∃ addr a2, a.allocate bytes = some (addr, a2) ∧
        a2.allocPtr = a.allocPtr ∧
        a2.allocBytesRemaining = a.allocBytesRemaining ∧
        a2.blocks = a.blocks ++ [(addr, bytes)]) ∧
    (bytes ≤ kBlockSize / 4 →
      ∃ addr a2, a.allocate bytes = some (addr, a2) ∧
        a2.blocks = a.blocks ++ [(addr, kBlockSize)] ∧
        a2.allocPtr = addr + bytes ∧
        a2.allocBytesRemaining = kBlockSize - bytes) := by
  have hb0 : ¬ bytes = 0 := by omega
  have hble : ¬ bytes ≤ a.allocBytesRemaining := by omega
  constructor
  · intro hbig
    have heq : a.allocate bytes = some (a.allocateNewBlock bytes) := by
      unfold Arena.allocate Arena.allocateFallBack
      rw [if_neg hb0, if_neg hble, if_pos hbig]
    rw [heq]
    unfold Arena.allocateNewBlock
    exact ⟨_, _, rfl, rfl, rfl, rfl⟩
  · intro hsmall
    have hnotbig : ¬ kBlockSize / 4 < bytes := by omega
    have heq : a.allocate bytes = some ((a.allocateNewBlock kBlockSize).1,
        { (a.allocateNewBlock kBlockSize).2 with
            allocPtr := (a.allocateNewBlock kBlockSize).1 + bytes,
            allocBytesRemaining := kBlockSize - bytes }) := by
      unfold Arena.allocate Arena.allocateFallBack
      rw [if_neg hb0, if_neg hble, if_neg hnotbig]
    rw [heq]
    unfold Arena.allocateNewBlock
    exact ⟨_, _, rfl, rfl, rfl, rfl⟩

theorem arena_fallback_policy_witness :
    (0 : Nat) < 2000 ∧ Arena.init.allocBytesRemaining < 2000 ∧
    (∃ addr a2, Arena.init.allocate 2000 = some (addr, a2) ∧
      a2.allocPtr = Arena.init.allocPtr ∧
      a2.allocBytesRemaining = Arena.init.allocBytesRemaining ∧
      a2.blocks = Arena.init.blocks ++ [(addr, 2000)]) :=
  ⟨by decide, by decide,
   (arena_fallback_policy Arena.init 2000 (by decide) (by decide)).1 (by decide)⟩

theorem SL.links_bounded (s : SL) (hInv : s.Inv) :
    ∀ p l r, s.nodeNext p l = some r → r < s.nodes.length := by
  intro p l r hr
  rcases hn : s.getNode p with _ | n
  · rw [s.nodeNext_eq_none hn] at hr
    cases hr
  · have hplt : p < s.nodes.length := by
      by_contra hc
      push_neg at hc
      unfold SL.getNode at hn
      rw [List.getElem?_eq_none hc] at hn
      cases hn
    have hp : p = 0 ∨ s.isReal p := by
      rcases Nat.eq_zero_or_pos p with h0 | hpos
      · exact Or.inl h0
      · exact Or.inr ⟨hpos, hplt⟩
    have hh : s.heightOf p = n.height := by simp [SL.heightOf, hn]
    rcases Nat.lt_or_ge l (s.heightOf p) with hl | hl
    · have hspec := hInv.links p l hp hl
      rw [hr] at hspec
      exact hspec.1.1.2
    · rw [s.nodeNext_ge_height hl] at hr
      cases hr

/-- Every predecessor entry Insert uses denotes a valid stored node that
participates in the level it was recorded for. -/
theorem insertPrev_valid (s : SL) (hInv : s.Inv) (k : Int) (h : Nat)
    (h12 : h ≤ kMaxHeight) :
    ∀ i, i < h → (s.insertPrev k h i).getD 0 < s.nodes.length ∧
      i < s.heightOf ((s.insertPrev k h i).getD 0) := by
  have hlen0 : 0 < s.nodes.length := hInv.head_lt
  rcases findGE_spec s hInv k with ⟨_, hlow, _⟩
  intro i hi
  have hfl : s.floorSpec i k ((s.insertPrev k h i).getD 0) := by
    simp only [SL.insertPrev]
    by_cases hmh : s.maxHeight < h
    · rw [if_pos hmh]
      by_cases hihi : s.maxHeight ≤ i ∧ i < h
      · simp only [if_pos hihi, Option.getD_some]
        left
        refine ⟨rfl, fun j hj => ?_⟩
        intro _
        have hb := (hInv.height_bounds j hj.1).2
        have := hj.2
        omega
      · simp only [if_neg hihi]
        have himax : i < s.maxHeight := by
          rcases Nat.lt_or_ge i s.maxHeight with hx | hx
          · exact hx
          · exact absurd ⟨hx, hi⟩ hihi
        rcases hlow i himax with ⟨r, hr, hfl⟩
        rw [hr]
        exact hfl
    · rw [if_neg hmh]
      have himax : i < s.maxHeight := by omega
      rcases hlow i himax with ⟨r, hr, hfl⟩
      rw [hr]
      exact hfl
  rcases hfl with ⟨h0, _⟩ | ⟨hlk, _, _⟩
  · rw [h0]
    refine ⟨hlen0, ?_⟩
    rw [hInv.head_height]
    simp only [kMaxHeight] at *
    omega
  · exact ⟨hlk.1.2, hlk.2⟩

/-! ## The write-granular model of Insert's linking phase

For the publication-order claim the two stores of one loop iteration
(skiplist.h lines 216-217) are modelled as separate atomic steps on a store
whose links can still be uninitialized, exactly as after NewNode. -/

namespace Micro

/-- A link cell: still uninitialized, or holding a (possibly null) pointer. -/
inductive LinkVal where
  | uninit : LinkVal
  | ptr : Option Nat → LinkVal
deriving DecidableEq, Repr

/-- A node whose link cells may be uninitialized. -/
structure MNode where
  mkey : Int
  mnext : List LinkVal
deriving DecidableEq, Repr

/-- A store of such nodes. -/
structure MS where
  mnodes : List MNode
deriving DecidableEq, Repr

/-- A fully initialized node, as injected from the functional model. -/
def ofNode (n : Node) : MNode := ⟨n.key, n.next.map LinkVal.ptr⟩

/-- Inject a skip list state: every stored link is a fully formed pointer. -/
def ofSL (s : SL) : MS := ⟨s.nodes.map ofNode⟩

/-- Read link cell `l` of node `id` (`none` = no such cell). -/
def MS.linkAt (t : MS) (id l : Nat) : Option LinkVal :=
  (t.mnodes[id]?).bind (fun n => n.mnext[l]?)

/-- The number of link cells of node `id`. -/
def MS.mheightOf (t : MS) (id : Nat) : Nat :=
  ((t.mnodes[id]?).map (fun n => n.mnext.length)).getD 0

/-- One atomic link store. -/
def MS.setLink (t : MS) (id l : Nat) (v : LinkVal) : MS :=
  match t.mnodes[id]? with
  | none => t
  | some n => ⟨t.mnodes.set id ⟨n.mkey, n.mnext.set l v⟩⟩

/-- The two stores of one level of Insert's loop, in program order: first
node->SetNext(i, prev[i]->Next(i)), then prev[i]->SetNext(i, node). -/
def MS.levelWrites (t : MS) (newId p i : Nat) : MS × MS :=
  (t.setLink newId i ((t.linkAt p i).getD (LinkVal.ptr none)),
   (t.setLink newId i ((t.linkAt p i).getD (LinkVal.ptr none))).setLink p i
     (LinkVal.ptr (some newId)))

/-- The states after each single link write, linking bottom-up from level
`i`, `rem` levels remaining. -/
def MS.linkTrace (newId : Nat) (P : Nat → Nat) : Nat → Nat → MS → List MS
  | _, 0, _ => []
  | i, rem+1, t =>
    (t.levelWrites newId (P i) i).1 ::
    (t.levelWrites newId (P i) i).2 ::
    MS.linkTrace newId P (i+1) rem (t.levelWrites newId (P i) i).2

/-- The state right after NewNode(key, height): the new node appended with
every link cell uninitialized. -/
def newNodeState (s : SL) (k : Int) (h : Nat) : MS :=
  ⟨(ofSL s).mnodes ++ [⟨k, List.replicate h LinkVal.uninit⟩]⟩

/-- Every intermediate state of Insert's linking phase, one entry per
executed link write (plus the initial state). -/
def insertStates (s : SL) (k : Int) (h : Nat) (P : Nat → Nat) : List MS :=
  newNodeState s k h ::
    MS.linkTrace s.nodes.length P 0 h (newNodeState s k h)

/-- No torn observation: whenever some node's level-L link points at a node,
that node's own links at every level up to L are initialized. -/
def MS.safe (t : MS) : Prop :=
  ∀ p L id, t.linkAt p L = some (LinkVal.ptr (some id)) →
    ∀ l, l ≤ L → ∀ v, t.linkAt id l = some v → v ≠ LinkVal.uninit

/-- The state description holding before linking level `i`: the new node is
the last slot, heights match `H`, all old links are initialized, the new node
is published only below level `i`, and its own links below `i` are
initialized. -/
def PreOK (newId : Nat) (H : Nat → Nat) (t : MS) (i : Nat) : Prop :=
  t.mnodes.length = newId + 1 ∧
  (∀ j, t.mheightOf j = H j) ∧
  (∀ p L v, p < newId → t.linkAt p L = some v → v ≠ LinkVal.uninit) ∧
  (∀ p L, t.linkAt p L = some (LinkVal.ptr (some newId)) → L < i) ∧
  (∀ l v, l < i → t.linkAt newId l = some v → v ≠ LinkVal.uninit)

theorem MS.linkAt_some_lt {t : MS} {id l : Nat} {v : LinkVal}
    (h : t.linkAt id l = some v) : id < t.mnodes.length := by
  unfold MS.linkAt at h
  rcases hn : t.mnodes[id]? with _ | n
  · rw [hn] at h
    cases h
  · by_contra hc
    push_neg at hc
    rw [List.getElem?_eq_none hc] at hn
    cases hn

theorem safe_of_preOK {newId : Nat} {H : Nat → Nat} {i : Nat} {t : MS}
    (hpre : PreOK newId H t i) : t.safe := by
  rcases hpre with ⟨hlen, _, hold, hpub, hnew⟩
  intro p L id hlink l hl v hv
  rcases Nat.lt_or_ge id newId with hid | hid
  · exact hold id l v hid hv
  · have hidlt : id < t.mnodes.length := MS.linkAt_some_lt hv
    have hideq : id = newId := by omega
    subst hideq
    have hL := hpub p L hlink
    exact hnew l v (by omega) hv

theorem MS.setLink_length (t : MS) (id l : Nat) (v : LinkVal) :
    (t.setLink id l v).mnodes.length = t.mnodes.length := by
  unfold MS.setLink
  cases h : t.mnodes[id]? <;> simp [h]

theorem MS.setLink_mheightOf (t : MS) (id l : Nat) (v : LinkVal) (j : Nat) :
    (t.setLink id l v).mheightOf j = t.mheightOf j := by
  unfold MS.setLink MS.mheightOf
  cases h : t.mnodes[id]? with
  | none => simp [h]
  | some n =>
    have hlt : id < t.mnodes.length := by
      by_contra hc
      push_neg at hc
      rw [List.getElem?_eq_none hc] at h
      cases h
    by_cases hj : id = j
    · subst hj
      simp [List.getElem?_set, hlt, h]
    · simp [List.getElem?_set, hj]

theorem MS.linkAt_setLink (t : MS) (id l : Nat) (v : LinkVal) (j m : Nat) :
    (t.setLink id l v).linkAt j m =
      if id < t.mnodes.length ∧ l < t.mheightOf id ∧ j = id ∧ m = l then some v
      else t.linkAt j m := by
  by_cases hid : id < t.mnodes.length
  · obtain ⟨n, hn⟩ : ∃ n, t.mnodes[id]? = some n :=
      ⟨t.mnodes[id], List.getElem?_eq_some.mpr ⟨hid, rfl⟩⟩
    have hh : t.mheightOf id = n.mnext.length := by
      simp [MS.mheightOf, hn]
    have hset : (t.setLink id l v).mnodes
        = t.mnodes.set id ⟨n.mkey, n.mnext.set l v⟩ := by
      simp [MS.setLink, hn]
    by_cases hj : j = id
    · subst hj
      have hget : (t.setLink j l v).mnodes[j]? = some ⟨n.mkey, n.mnext.set l v⟩ := by
        rw [hset]
        exact List.getElem?_set_self hid
      unfold MS.linkAt
      rw [hget]
      by_cases hm : m = l
      · subst hm
        by_cases hlen : m < n.mnext.length
        · simp only [Option.some_bind]
          rw [List.getElem?_set_self (by simpa using hlen)]
          rw [if_pos ⟨hid, by omega, by trivial, by trivial⟩]
        · simp only [Option.some_bind]
          rw [List.getElem?_eq_none (by simpa using (by omega : n.mnext.length ≤ m))]
          rw [if_neg (by intro hc; omega)]
          rw [hn]
          simp only [Option.some_bind]
          rw [List.getElem?_eq_none (by omega : n.mnext.length ≤ m)]
      · simp only [Option.some_bind]
        rw [List.getElem?_set_ne (fun hc => hm hc.symm)]
        rw [if_neg (by intro hc; exact hm hc.2.2.2)]
        rw [hn]
        simp
    · have hget : (t.setLink id l v).mnodes[j]? = t.mnodes[j]? := by
        rw [hset]
        exact List.getElem?_set_ne (fun hc => hj hc.symm)
      unfold MS.linkAt
      rw [hget, if_neg (by intro hc; exact hj hc.2.2.1)]
  · have hn : t.mnodes[id]? = none := List.getElem?_eq_none (by omega)
    have hset : t.setLink id l v = t := by
      simp [MS.setLink, hn]
    rw [hset, if_neg (by intro hc; exact hid hc.1)]

theorem linkTrace_safe (newId : Nat) (H : Nat → Nat) (h : Nat) (P : Nat → Nat)
    (hPlt : ∀ i, i < h → P i < newId)
    (hPh : ∀ i, i < h → i < H (P i))
    (hHnew : H newId = h) :
    ∀ (rem i : Nat) (t : MS), i + rem ≤ h → PreOK newId H t i →
      ∀ u ∈ MS.linkTrace newId P i rem t, u.safe := by
  intro rem
  induction rem with
  | zero =>
    intro i t _ _ u hu
    simp [MS.linkTrace] at hu
  | succ rem ih =>
    intro i t hih hpre u hu
    have hi : i < h := by omega
    have hPi : P i < newId := hPlt i hi
    obtain ⟨hlen, hheight, hold, hpub, hnew⟩ := hpre
    set v : LinkVal := (t.linkAt (P i) i).getD (LinkVal.ptr none) with hv
    have hv_ne_uninit : v ≠ LinkVal.uninit := by
      rw [hv]
      rcases hva : t.linkAt (P i) i with _ | w
      · simp
      · simp only [Option.getD_some]
        exact hold (P i) i w hPi hva
    have hv_ne_pub : v ≠ LinkVal.ptr (some newId) := by
      rw [hv]
      rcases hva : t.linkAt (P i) i with _ | w
      · simp
      · simp only [Option.getD_some]
        intro hc
        subst hc
        have := hpub (P i) i hva
        omega
    set t1 := t.setLink newId i v with ht1
    have ht1len : t1.mnodes.length = newId + 1 := by
      rw [ht1, MS.setLink_length, hlen]
    have ht1h : ∀ j, t1.mheightOf j = H j := by
      intro j
      rw [ht1, MS.setLink_mheightOf, hheight]
    have ht1link : ∀ j m, t1.linkAt j m =
        if j = newId ∧ m = i then some v else t.linkAt j m := by
      intro j m
      rw [ht1, MS.linkAt_setLink]
      by_cases hc : j = newId ∧ m = i
      · rw [if_pos ⟨by omega, by rw [hheight, hHnew]; omega, hc.1, hc.2⟩, if_pos hc]
      · rw [if_neg (by intro hx; exact hc ⟨hx.2.2.1, hx.2.2.2⟩), if_neg hc]
    have hpre1 : PreOK newId H t1 i := by
      refine ⟨ht1len, ht1h, ?_, ?_, ?_⟩
      · intro p L w hp hw
        rw [ht1link] at hw
        rw [if_neg (by intro hx; omega)] at hw
        exact hold p L w hp hw
      · intro p L hw
        rw [ht1link] at hw
        by_cases hc : p = newId ∧ L = i
        · rw [if_pos hc] at hw
          exact absurd (Option.some.inj hw) hv_ne_pub
        · rw [if_neg hc] at hw
          exact hpub p L hw
      · intro l w hl hw
        rw [ht1link] at hw
        rw [if_neg (by intro hx; omega)] at hw
        exact hnew l w hl hw
    set t2 := t1.setLink (P i) i (LinkVal.ptr (some newId)) with ht2
    have ht2len : t2.mnodes.length = newId + 1 := by
      rw [ht2, MS.setLink_length, ht1len]
    have ht2h : ∀ j, t2.mheightOf j = H j := by
      intro j
      rw [ht2, MS.setLink_mheightOf, ht1h]
    have ht2link : ∀ j m, t2.linkAt j m =
        if j = P i ∧ m = i then some (LinkVal.ptr (some newId))
        else t1.linkAt j m := by
      intro j m
      rw [ht2, MS.linkAt_setLink]
      by_cases hc : j = P i ∧ m = i
      · rw [if_pos ⟨by omega, by rw [ht1h]; exact hPh i hi, hc.1, hc.2⟩, if_pos hc]
      · rw [if_neg (by intro hx; exact hc ⟨hx.2.2.1, hx.2.2.2⟩), if_neg hc]
    have hpre2 : PreOK newId H t2 (i+1) := by
      refine ⟨ht2len, ht2h, ?_, ?_, ?_⟩
      · intro p L w hp hw
        rw [ht2link] at hw
        by_cases hc : p = P i ∧ L = i
        · rw [if_pos hc] at hw
          intro hcw
          rw [← (Option.some.inj hw)] at hcw
          cases hcw
        · rw [if_neg hc, ht1link, if_neg (by intro hx; omega)] at hw
          exact hold p L w hp hw
      · intro p L hw
        rw [ht2link] at hw
        by_cases hc : p = P i ∧ L = i
        · rw [if_pos hc] at hw
          omega
        · rw [if_neg hc, ht1link] at hw
          by_cases hc2 : p = newId ∧ L = i
          · rw [if_pos hc2] at hw
            exact absurd (Option.some.inj hw) hv_ne_pub
          · rw [if_neg hc2] at hw
            have := hpub p L hw
            omega
      · intro l w hl hw
        rw [ht2link, if_neg (by intro hx; omega)] at hw
        rw [ht1link] at hw
        by_cases hc : l = i
        · rw [if_pos ⟨rfl, hc⟩] at hw
          rw [← (Option.some.inj hw)]
          exact hv_ne_uninit
        · rw [if_neg (by intro hx; exact hc hx.2)] at hw
          exact hnew l w (by omega) hw
    have hw1 : (t.levelWrites newId (P i) i).1 = t1 := rfl
    have hw2 : (t.levelWrites newId (P i) i).2 = t2 := rfl
    simp only [MS.linkTrace, List.mem_cons] at hu
    rcases hu with hu1 | hu2 | hurest
    · rw [hu1, hw1]
      exact safe_of_preOK hpre1
    · rw [hu2, hw2]
      exact safe_of_preOK hpre2
    · rw [hw2] at hurest
      exact ih (i+1) t2 (by omega) hpre2 u hurest

theorem newNodeState_length (s : SL) (k : Int) (h : Nat) :
    (newNodeState s k h).mnodes.length = s.nodes.length + 1 := by
  simp [newNodeState, ofSL]

theorem newNodeState_mheightOf (s : SL) (k : Int) (h : Nat) (j : Nat) :
    (newNodeState s k h).mheightOf j
      = if j = s.nodes.length then h else s.heightOf j := by
  unfold MS.mheightOf newNodeState ofSL
  by_cases hj : j = s.nodes.length
  · subst hj
    rw [if_pos rfl]
    have hlen : (s.nodes.map ofNode).length = s.nodes.length := by simp
    rw [show (s.nodes.map ofNode ++ [⟨k, List.replicate h LinkVal.uninit⟩])[s.nodes.length]?
        = some ⟨k, List.replicate h LinkVal.uninit⟩ from by
      rw [← hlen]
      exact List.getElem?_concat_length _ _]
    simp
  · rw [if_neg hj]
    rcases Nat.lt_or_ge j s.nodes.length with hlt | hge
    · rw [List.getElem?_append_left (by simpa using hlt), List.getElem?_map]
      rcases hn : s.nodes[j]? with _ | n
      · exfalso
        rw [List.getElem?_eq_none_iff] at hn
        omega
      · simp [SL.heightOf, SL.getNode, hn, ofNode, Node.height]
    · have hge2 : s.nodes.length < j := by omega
      rw [List.getElem?_eq_none (by simp; omega)]
      simp [SL.heightOf, SL.getNode, List.getElem?_eq_none (by omega : s.nodes.length ≤ j)]

theorem newNodeState_linkAt_old (s : SL) (k : Int) (h : Nat) {p : Nat}
    (hp : p < s.nodes.length) (L : Nat) :
    ∃ n, s.getNode p = some n ∧
      (newNodeState s k h).linkAt p L = (n.next[L]?).map LinkVal.ptr := by
  obtain ⟨n, hn⟩ : ∃ n, s.nodes[p]? = some n :=
    ⟨s.nodes[p], List.getElem?_eq_some.mpr ⟨hp, rfl⟩⟩
  refine ⟨n, hn, ?_⟩
  unfold MS.linkAt newNodeState ofSL
  rw [List.getElem?_append_left (by simpa using hp), List.getElem?_map, hn]
  simp [ofNode]

theorem newNodeState_linkAt_new (s : SL) (k : Int) (h : Nat) (L : Nat) :
    (newNodeState s k h).linkAt s.nodes.length L
      = if L < h then some LinkVal.uninit else none := by
  unfold MS.linkAt newNodeState ofSL
  have hlen : (s.nodes.map ofNode).length = s.nodes.length := by simp
  rw [show (s.nodes.map ofNode ++ [⟨k, List.replicate h LinkVal.uninit⟩])[s.nodes.length]?
      = some ⟨k, List.replicate h LinkVal.uninit⟩ from by
    rw [← hlen]
    exact List.getElem?_concat_length _ _]
  simp [List.getElem?_replicate]

end Micro

/-- C3: during Insert, levels are linked bottom-up and at each level the new
node's own link is written before the predecessor's link is redirected;
consequently, after every individual link write, any node reachable through a
level-L link has all of its own links up to level L fully initialized — no
intermediate state exposes a torn or partially linked node. -/
theorem insert_publication_safe (l : List (Int × Nat)) (hg : GoodInserts l)
    (k : Int) (h : Nat) (h12 : h ≤ kMaxHeight) :
    ∀ t ∈ Micro.insertStates (build l) k h
        (fun i => ((build l).insertPrev k h i).getD 0),
      t.safe := by
  rcases build_inv hg with ⟨hInv, _⟩
  set s := build l with hs
  set P : Nat → Nat := fun i => (s.insertPrev k h i).getD 0 with hP
  have hvalid := insertPrev_valid s hInv k h h12
  set H : Nat → Nat := fun j => if j = s.nodes.length then h else s.heightOf j with hH
  have hPeq : ∀ i, P i = (s.insertPrev k h i).getD 0 := fun i => rfl
  have hPlt : ∀ i, i < h → P i < s.nodes.length := by
    intro i hi
    rw [hPeq]
    exact (hvalid i hi).1
  have hPh : ∀ i, i < h → i < H (P i) := by
    intro i hi
    rw [hH]
    simp only
    rw [if_neg (by rw [hPeq]; have := (hvalid i hi).1; omega)]
    rw [hPeq]
    exact (hvalid i hi).2
  have hHnew : H s.nodes.length = h := by rw [hH]; simp
  have hpre0 : Micro.PreOK s.nodes.length H (Micro.newNodeState s k h) 0 := by
    refine ⟨Micro.newNodeState_length s k h, ?_, ?_, ?_, ?_⟩
    · intro j
      rw [Micro.newNodeState_mheightOf, hH]
    · intro p L w hp hw
      rcases Micro.newNodeState_linkAt_old s k h hp L with ⟨n, _, hlk⟩
      rw [hlk] at hw
      rcases hcell : n.next[L]? with _ | w2
      · rw [hcell] at hw
        cases hw
      · rw [hcell] at hw
        rw [← (Option.some.inj hw)]
        simp
    · intro p L hw
      have hplt : p < s.nodes.length + 1 := by
        have := Micro.MS.linkAt_some_lt hw
        rwa [Micro.newNodeState_length] at this
      rcases Nat.lt_or_ge p s.nodes.length with hlt | hge
      · rcases Micro.newNodeState_linkAt_old s k h hlt L with ⟨n, hn, hlk⟩
        rw [hlk] at hw
        rcases hcell : n.next[L]? with _ | w2
        · rw [hcell] at hw
          cases hw
        · rw [hcell] at hw
          have hw2 : w2 = some s.nodes.length := by
            have := Option.some.inj hw
            simp only [Option.map_some] at this
            cases hx : w2 with
            | none => rw [hx] at this; cases this
            | some a =>
              rw [hx] at this
              cases this
              rfl
          have hnext : s.nodeNext p L = some s.nodes.length := by
            rw [s.nodeNext_eq hn, hcell, hw2]
            rfl
          have := s.links_bounded hInv p L s.nodes.length hnext
          omega
      · have hpeq : p = s.nodes.length := by omega
        subst hpeq
        rw [Micro.newNodeState_linkAt_new] at hw
        by_cases hL : L < h
        · rw [if_pos hL] at hw
          cases hw
        · rw [if_neg hL] at hw
          cases hw
    · intro l2 w hl2 _
      omega
  intro t ht
  simp only [Micro.insertStates, List.mem_cons] at ht
  rcases ht with ht0 | htrace
  · rw [ht0]
    exact Micro.safe_of_preOK hpre0
  · exact Micro.linkTrace_safe s.nodes.length H h P hPlt hPh hHnew h 0
      (Micro.newNodeState s k h) (by omega) hpre0 t htrace

theorem insert_publication_safe_witness :
    (Micro.newNodeState (build demoL) 12 2).safe :=
  insert_publication_safe demoL (by decide) 12 2 (by decide)
    (Micro.newNodeState (build demoL) 12 2) (List.mem_cons_self _ _)

/-- The drawn height always lies in [1, kMaxHeight], whatever the OneIn
draws are: the loop starts at 1 and only increments while below kMaxHeight
(skiplist.h lines 297-311).  Quantifying the insert theorems over heights in
[1, kMaxHeight] therefore covers every height RandomHeight can produce. -/
theorem randomHeight_bounds (coins : List Bool) :
    1 ≤ randomHeight coins ∧ randomHeight coins ≤ kMaxHeight := by
  have haux : ∀ (cs : List Bool) (h0 : Nat), 1 ≤ h0 → h0 ≤ kMaxHeight →
      1 ≤ randomHeightAux h0 cs ∧ randomHeightAux h0 cs ≤ kMaxHeight := by
    intro cs
    induction cs with
    | nil => intro h0 h1 h2; exact ⟨h1, h2⟩
    | cons c rest ih =>
      intro h0 h1 h2
      unfold randomHeightAux
      by_cases hc : h0 < kMaxHeight ∧ c = true
      · rw [if_pos hc]
        exact ih (h0 + 1) (by omega) (by omega)
      · rw [if_neg hc]
        exact ⟨h1, h2⟩
  exact haux coins 1 (by omega) (by simp [kMaxHeight])

end LevelDB
